import Mathlib

/-!
# Verification of the poml-studio analysis pipeline

A shallow embedding of the text-analysis pipeline of the poml-studio
repository (pattern matching, contextual confidence, section extraction,
overlap resolution, POML component generation and formatting), together
with proofs and refutations of the specification's claims.

Modelling conventions:
* JavaScript numbers are modelled as `ℚ` (all arithmetic in the pipeline is
  exact on rationals); `Math.round` is `jsRound` (round half towards +∞),
  integer-valued confidences are `ℤ`.
* JavaScript strings are modelled as `String`/`List Char` (UTF-16 subtleties
  for astral-plane code points are out of scope).
* The JavaScript regular-expression engine is not part of the repository's
  code; where a regex is applied to text whose shape matters to a claim the
  exact pattern semantics are implemented directly (whitespace classes,
  word boundaries, the specific split/replace patterns of the source);
  where only the opaque result of a `String.match` call matters the match
  result is a parameter (`MatchOracle`), and the theorems hold for every
  oracle.
* Mutable instance state (pattern counters, confidence history, feedback
  records) is threaded explicitly; wall-clock timing (`performance.now`,
  `processingTimeMs`) is omitted, as every claim leaves it unconstrained.
* Diagnostic-only `metadata` bags on sections are omitted: no claim and no
  control-flow in the modelled code reads them.
-/

namespace PomlStudio

/-- The apostrophe character, written via its code point. -/
def apos : Char := Char.ofNat 39

/-- The apostrophe as a one-character string. -/
def aposS : String := String.singleton apos

/-- `Math.round` of JavaScript: round half towards positive infinity. -/
def jsRound (q : ℚ) : ℤ := ⌊q + 1/2⌋

/-- The JavaScript `\s` character class (the whitespace characters relevant
here: ASCII whitespace, NBSP, and the Unicode line/paragraph separators). -/
def jsIsWs (c : Char) : Bool :=
  c == ' ' || c == '\t' || c == '\n' || c == '\r' || c == Char.ofNat 11 || c == Char.ofNat 12 ||
  c == Char.ofNat 160 || c == Char.ofNat 0x2028 || c == Char.ofNat 0x2029 || c == Char.ofNat 0xFEFF

/-- `String.prototype.trim`: drop leading and trailing whitespace
(on the character list). -/
def jsTrimList (l : List Char) : List Char :=
  ((l.dropWhile jsIsWs).reverse.dropWhile jsIsWs).reverse

/-- `String.prototype.trim` on `String`. -/
def jsTrim (s : String) : String := ⟨jsTrimList s.data⟩

/-- `String.prototype.toLowerCase` (ASCII case mapping). -/
def jsToLower (s : String) : String := ⟨s.data.map Char.toLower⟩

/-- One step of `replace(/\s+/g, ' ')`: the flag records whether the
previous character belonged to a whitespace run that has already been
replaced by a single space. -/
def collapseWsGo : Bool → List Char → List Char
  | _, [] => []
  | prevWs, c :: cs =>
    if jsIsWs c then
      if prevWs then collapseWsGo true cs else ' ' :: collapseWsGo true cs
    else c :: collapseWsGo false cs

/-- `replace(/\s+/g, ' ')`: every maximal whitespace run becomes one space. -/
def collapseWs (l : List Char) : List Char := collapseWsGo false l

/-- Case-insensitive prefix test (the `i` flag on an all-lowercase literal
alternative). -/
def ciStartsWith (pat : List Char) (l : List Char) : Bool :=
  pat.isPrefixOf (l.map Char.toLower |>.take pat.length)

/-- The lead-in phrases of `TemplateEngine.cleanContent`'s prefix-stripping
regex `^(you are|act as|your task is|please|don't|for example|respond in)\s*`,
in the source's alternation order. -/
def leadInPhrases : List (List Char) :=
  ["you are".data, "act as".data, "your task is".data, "please".data,
   ("don" ++ aposS ++ "t").data, "for example".data, "respond in".data]

/-- `replace(/^(you are|act as|your task is|please|don't|for example|respond in)\s*/gi, '')`:
without the `m` flag the `^` anchor only matches at position 0, so at most
one leading phrase (plus the whitespace that follows it) is removed. -/
def stripLeadIn (l : List Char) : List Char :=
  match leadInPhrases.find? (fun p => ciStartsWith p l) with
  | some p => (l.drop p.length).dropWhile jsIsWs
  | none => l

/-- `TemplateEngine.cleanContent`:
`content.trim().replace(/\s+/g,' ').replace(/^(you are|...)\s*/gi,'').trim()`. -/
def cleanContent (s : String) : String :=
  ⟨jsTrimList (stripLeadIn (collapseWs (jsTrimList s.data)))⟩

/-! ### Idempotence analysis of `cleanContent` (claim C3) -/

lemma dropWhile_dropWhile {α : Type} (p : α → Bool) (l : List α) :
    (l.dropWhile p).dropWhile p = l.dropWhile p := by
  induction l with
  | nil => rfl
  | cons c cs ih =>
    by_cases h : p c <;> simp [List.dropWhile_cons, h, ih]

lemma head_not_of_dropWhile_eq_self {α : Type} {p : α → Bool} {l : List α}
    (h : l.dropWhile p = l) : ∀ c cs, l = c :: cs → p c = false := by
  intro c cs hl
  subst hl
  by_cases hc : p c
  · exfalso
    rw [List.dropWhile_cons, if_pos hc] at h
    have hlen := congrArg List.length h
    have hle := (List.dropWhile_suffix (l := cs) p).length_le
    simp at hlen
    omega
  · simpa using hc

lemma dropWhile_eq_self_of_head {α : Type} {p : α → Bool} {l : List α}
    (h : ∀ c cs, l = c :: cs → p c = false) : l.dropWhile p = l := by
  cases l with
  | nil => rfl
  | cons c cs => rw [List.dropWhile_cons, if_neg (by simp [h c cs rfl])]

lemma dropWhile_eq_self_of_isPrefix {α : Type} {p : α → Bool} {l m : List α}
    (hm : m.dropWhile p = m) (hp : l <+: m) : l.dropWhile p = l := by
  apply dropWhile_eq_self_of_head
  intro c cs hl
  subst hl
  obtain ⟨t, ht⟩ := hp
  exact head_not_of_dropWhile_eq_self (l := m) hm c (cs ++ t) (by rw [← ht]; simp)

lemma reverse_dropWhile_reverse_isPrefix {α : Type} (p : α → Bool) (l : List α) :
    (l.reverse.dropWhile p).reverse <+: l := by
  obtain ⟨t, ht⟩ := List.dropWhile_suffix (l := l.reverse) p
  exact ⟨t.reverse, by rw [← List.reverse_append, ht, List.reverse_reverse]⟩

lemma jsTrimList_eq_self {l : List Char} (h1 : l.dropWhile jsIsWs = l)
    (h2 : l.reverse.dropWhile jsIsWs = l.reverse) : jsTrimList l = l := by
  unfold jsTrimList
  rw [h1, h2, List.reverse_reverse]

lemma jsTrimList_front (l : List Char) :
    (jsTrimList l).dropWhile jsIsWs = jsTrimList l := by
  unfold jsTrimList
  exact dropWhile_eq_self_of_isPrefix (dropWhile_dropWhile jsIsWs l)
    (reverse_dropWhile_reverse_isPrefix jsIsWs (l.dropWhile jsIsWs))

lemma jsTrimList_back (l : List Char) :
    (jsTrimList l).reverse.dropWhile jsIsWs = (jsTrimList l).reverse := by
  unfold jsTrimList
  rw [List.reverse_reverse]
  exact dropWhile_dropWhile jsIsWs _

lemma jsTrimList_idem (l : List Char) : jsTrimList (jsTrimList l) = jsTrimList l :=
  jsTrimList_eq_self (jsTrimList_front l) (jsTrimList_back l)

lemma jsTrimList_isInfix (l : List Char) : jsTrimList l <:+: l := by
  unfold jsTrimList
  have h1 : (((l.dropWhile jsIsWs).reverse.dropWhile jsIsWs).reverse) <+: l.dropWhile jsIsWs :=
    reverse_dropWhile_reverse_isPrefix jsIsWs (l.dropWhile jsIsWs)
  exact h1.isInfix.trans (List.dropWhile_suffix jsIsWs).isInfix

/-- No two adjacent whitespace characters (the shape left behind by
`replace(/\s+/g, ' ')`). -/
def noAdjWs : Char → Char → Prop := fun a b => ¬(jsIsWs a = true ∧ jsIsWs b = true)

/-- The invariant established by whitespace collapapsing: every whitespace
character is a plain space and no two whitespace characters are adjacent. -/
def GoodWs (l : List Char) : Prop :=
  (∀ c ∈ l, jsIsWs c = true → c = ' ') ∧ List.Chain' noAdjWs l

lemma GoodWs.of_isInfix {l m : List Char} (h : GoodWs m) (hi : l <:+: m) : GoodWs l :=
  ⟨fun c hc => h.1 c (hi.sublist.subset hc), List.Chain'.infix h.2 hi⟩

lemma collapseWsGo_mem : ∀ (b : Bool) (l : List Char),
    ∀ c ∈ collapseWsGo b l, jsIsWs c = true → c = ' ' := by
  intro b l
  induction l generalizing b with
  | nil => simp [collapseWsGo]
  | cons d ds ih =>
    intro c hc hws
    unfold collapseWsGo at hc
    by_cases hd : jsIsWs d
    · rw [if_pos hd] at hc
      cases b with
      | true => exact ih true c hc hws
      | false =>
        rcases List.mem_cons.mp hc with h | h
        · exact h
        · exact ih true c h hws
    · rw [if_neg hd] at hc
      rcases List.mem_cons.mp hc with h | h
      · exact absurd (h ▸ hws) (by simpa using hd)
      · exact ih false c h hws

lemma collapseWsGo_true_head : ∀ (l : List Char) (c : Char) (cs : List Char),
    collapseWsGo true l = c :: cs → jsIsWs c = false := by
  intro l
  induction l with
  | nil => intro c cs h; simp [collapseWsGo] at h
  | cons d ds ih =>
    intro c cs h
    unfold collapseWsGo at h
    by_cases hd : jsIsWs d
    · rw [if_pos hd] at h
      exact ih c cs h
    · rw [if_neg hd] at h
      obtain ⟨rfl, -⟩ := List.cons.inj h
      simpa using hd

lemma collapseWsGo_chain : ∀ (b : Bool) (l : List Char),
    List.Chain' noAdjWs (collapseWsGo b l) := by
  intro b l
  induction l generalizing b with
  | nil => simp [collapseWsGo]
  | cons d ds ih =>
    unfold collapseWsGo
    by_cases hd : jsIsWs d
    · rw [if_pos hd]
      cases b with
      | true => exact ih true
      | false =>
        show List.Chain' noAdjWs (' ' :: collapseWsGo true ds)
        rw [List.chain'_cons']
        refine ⟨?_, ih true⟩
        intro y hy
        cases hrest : collapseWsGo true ds with
        | nil => rw [hrest] at hy; simp at hy
        | cons c cs =>
          rw [hrest] at hy
          simp at hy
          subst hy
          exact fun hcon => by simp [collapseWsGo_true_head ds c cs hrest] at hcon
    · rw [if_neg hd]
      rw [List.chain'_cons']
      refine ⟨?_, ih false⟩
      intro y _
      exact fun hcon => by simp [hd] at hcon

lemma collapseWs_goodWs (l : List Char) : GoodWs (collapseWs l) :=
  ⟨collapseWsGo_mem false l, collapseWsGo_chain false l⟩

lemma collapseWsGo_eq_self : ∀ (l : List Char), GoodWs l →
    ∀ b : Bool, (b = true → ∀ c cs, l = c :: cs → jsIsWs c = false) →
    collapseWsGo b l = l := by
  intro l
  induction l with
  | nil => intro _ b _; cases b <;> rfl
  | cons d ds ih =>
    intro hg b hb
    have htail : GoodWs ds := ⟨fun c hc => hg.1 c (List.mem_cons_of_mem d hc), hg.2.tail⟩
    unfold collapseWsGo
    by_cases hd : jsIsWs d
    · have hdsp : d = ' ' := hg.1 d (List.mem_cons_self d ds) hd
      have hbf : b = false := by
        cases b with
        | false => rfl
        | true => exact absurd (hb rfl d ds rfl) (by simp [hd])
      subst hbf
      rw [if_pos hd]
      have hdnext : ∀ c cs, ds = c :: cs → jsIsWs c = false := by
        intro c cs hds
        have := List.chain'_cons'.mp (hds ▸ hg.2)
        have hr := this.1 c (by simp)
        by_cases hc : jsIsWs c
        · exact absurd ⟨hd, hc⟩ hr
        · simpa using hc
      rw [if_neg (by simp : ¬(false = true)), ih htail true (fun _ => hdnext), hdsp]
    · rw [if_neg hd]
      rw [ih htail false (by simp)]

lemma collapseWs_eq_self {l : List Char} (h : GoodWs l) : collapseWs l = l :=
  collapseWsGo_eq_self l h false (by simp)

lemma stripLeadIn_isSuffix (l : List Char) : stripLeadIn l <:+ l := by
  unfold stripLeadIn
  cases leadInPhrases.find? (fun p => ciStartsWith p l) with
  | none => exact List.suffix_refl l
  | some p => exact (List.dropWhile_suffix jsIsWs).trans (List.drop_suffix p.length l)

lemma cleanContent_data_goodWs (s : String) : GoodWs (cleanContent s).data := by
  have h1 : GoodWs (collapseWs (jsTrimList s.data)) := collapseWs_goodWs _
  have h2 : stripLeadIn (collapseWs (jsTrimList s.data)) <:+ collapseWs (jsTrimList s.data) :=
    stripLeadIn_isSuffix _
  have h3 := jsTrimList_isInfix (stripLeadIn (collapseWs (jsTrimList s.data)))
  exact h1.of_isInfix (h3.trans h2.isInfix)

/-- C3 counterexample: `cleanContent` is not idempotent.  On
`"please you are a bot"` the first pass strips the lead-in `"please"`,
exposing a fresh lead-in `"you are"` that the second pass also strips. -/
theorem cleanContent_not_idempotent :
    cleanContent (cleanContent "please you are a bot") ≠
      cleanContent "please you are a bot" := by decide

/-- C3 (amended): the content-cleaning step of the Template Engine is
idempotent on exactly those inputs whose cleaned form does not itself start
with one of the seven lead-in phrases of the stripping regex: for every
string `s` such that no lead-in phrase is a (case-insensitive) prefix of
`cleanContent s`, `cleanContent (cleanContent s) = cleanContent s`. -/
theorem cleanContent_idem_of_no_lead_in (s : String)
    (h : leadInPhrases.find? (fun p => ciStartsWith p (cleanContent s).data) = none) :
    cleanContent (cleanContent s) = cleanContent s := by
  have hgood : GoodWs (cleanContent s).data := cleanContent_data_goodWs s
  have htrim : jsTrimList (cleanContent s).data = (cleanContent s).data := by
    show jsTrimList (jsTrimList (stripLeadIn (collapseWs (jsTrimList s.data)))) = _
    rw [jsTrimList_idem]
    rfl
  have hstrip : stripLeadIn (cleanContent s).data = (cleanContent s).data := by
    unfold stripLeadIn
    rw [h]
  show (⟨jsTrimList (stripLeadIn (collapseWs (jsTrimList (cleanContent s).data)))⟩ : String) = _
  rw [htrim, collapseWs_eq_self hgood, hstrip, htrim]

/-- Witness for C3 (amended) at the concrete input `"hello world"`. -/
theorem cleanContent_idem_witness :
    cleanContent (cleanContent "hello world") = cleanContent "hello world" :=
  cleanContent_idem_of_no_lead_in "hello world" (by decide)

/-! ### Data model: section categories and detected sections -/

/-- `SectionType` from `src/types`: the closed category enumeration. -/
inductive SectionType where
  | role
  | task
  | constraints
  | examples
  | outputFormat
  | unknown
deriving DecidableEq

/-- `DetectedSection` as produced by the analysis pipeline
(`{id, type, content, confidence, startIndex, endIndex, patterns}`).
Section confidences are integer percentages; boundary indices are rational
because `expandSectionBoundaries` caps expansion at half the original span.
The diagnostic `metadata` bag is omitted (never read by the pipeline). -/
structure DetectedSection where
  id : String
  type : SectionType
  content : String
  confidence : ℤ
  startIndex : ℚ
  endIndex : ℚ
  patterns : List String
deriving DecidableEq

/-! ### Stable sorts

`Array.prototype.sort` is stable; a stable comparison sort by a numeric key
is extensionally the insertion sort that keeps equal keys in input order. -/

/-- Stable insertion (ascending by `startIndex`, ties keep input order). -/
def insertByStart (x : DetectedSection) : List DetectedSection → List DetectedSection
  | [] => [x]
  | y :: ys => if x.startIndex < y.startIndex then x :: y :: ys else y :: insertByStart x ys

/-- `sections.sort((a, b) => a.startIndex - b.startIndex)`. -/
def sortByStart (l : List DetectedSection) : List DetectedSection :=
  l.foldl (fun acc x => insertByStart x acc) []

/-- Stable insertion (descending by `confidence`, ties keep input order). -/
def insertByConfDesc (x : DetectedSection) : List DetectedSection → List DetectedSection
  | [] => [x]
  | y :: ys => if x.confidence > y.confidence then x :: y :: ys else y :: insertByConfDesc x ys

/-- `sections.sort((a, b) => b.confidence - a.confidence)`. -/
def sortByConfDesc (l : List DetectedSection) : List DetectedSection :=
  l.foldl (fun acc x => insertByConfDesc x acc) []

lemma mem_insertByStart {x z : DetectedSection} : ∀ {l : List DetectedSection},
    z ∈ insertByStart x l → z = x ∨ z ∈ l := by
  intro l
  induction l with
  | nil => simp [insertByStart]
  | cons y ys ih =>
    simp only [insertByStart]
    split
    · intro h
      rcases List.mem_cons.mp h with h | h
      · exact Or.inl h
      · exact Or.inr h
    · intro h
      rcases List.mem_cons.mp h with h | h
      · exact Or.inr (h ▸ List.mem_cons_self y ys)
      · rcases ih h with h | h
        · exact Or.inl h
        · exact Or.inr (List.mem_cons_of_mem y h)

lemma insertByStart_pairwise {x : DetectedSection} {l : List DetectedSection}
    (h : List.Pairwise (fun a b => a.startIndex ≤ b.startIndex) l) :
    List.Pairwise (fun a b => a.startIndex ≤ b.startIndex) (insertByStart x l) := by
  induction l with
  | nil => simp [insertByStart]
  | cons y ys ih =>
    obtain ⟨hy, hys⟩ := List.pairwise_cons.mp h
    simp only [insertByStart]
    split
    · rename_i hlt
      refine List.pairwise_cons.mpr ⟨?_, h⟩
      intro z hz
      rcases List.mem_cons.mp hz with rfl | hz
      · exact le_of_lt hlt
      · exact le_trans (le_of_lt hlt) (hy z hz)
    · rename_i hnlt
      refine List.pairwise_cons.mpr ⟨?_, ih hys⟩
      intro z hz
      rcases mem_insertByStart hz with rfl | hz
      · exact le_of_not_lt hnlt
      · exact hy z hz

lemma sortByStart_pairwise (l : List DetectedSection) :
    List.Pairwise (fun a b => a.startIndex ≤ b.startIndex) (sortByStart l) := by
  have haux : ∀ (l acc : List DetectedSection),
      List.Pairwise (fun a b => a.startIndex ≤ b.startIndex) acc →
      List.Pairwise (fun a b => a.startIndex ≤ b.startIndex)
        (l.foldl (fun acc x => insertByStart x acc) acc) := by
    intro l
    induction l with
    | nil => intro acc h; exact h
    | cons x xs ih => intro acc h; exact ih _ (insertByStart_pairwise h)
  exact haux l [] List.Pairwise.nil

lemma insertByStart_perm (x : DetectedSection) (l : List DetectedSection) :
    List.Perm (insertByStart x l) (x :: l) := by
  induction l with
  | nil => rfl
  | cons y ys ih =>
    simp only [insertByStart]
    split
    · rfl
    · exact (List.Perm.cons y ih).trans (List.Perm.swap x y ys)

lemma insertByConfDesc_perm (x : DetectedSection) (l : List DetectedSection) :
    List.Perm (insertByConfDesc x l) (x :: l) := by
  induction l with
  | nil => rfl
  | cons y ys ih =>
    simp only [insertByConfDesc]
    split
    · rfl
    · exact (List.Perm.cons y ih).trans (List.Perm.swap x y ys)

lemma foldl_insert_perm (ins : DetectedSection → List DetectedSection → List DetectedSection)
    (hins : ∀ x l, List.Perm (ins x l) (x :: l)) :
    ∀ (l acc : List DetectedSection), List.Perm (l.foldl (fun acc x => ins x acc) acc) (l ++ acc) := by
  intro l
  induction l with
  | nil => intro acc; simp
  | cons x xs ih =>
    intro acc
    show List.Perm (xs.foldl (fun acc x => ins x acc) (ins x acc)) ((x :: xs) ++ acc)
    refine (ih (ins x acc)).trans ?_
    refine (List.Perm.append_left xs (hins x acc)).trans ?_
    exact List.perm_middle

lemma sortByStart_perm (l : List DetectedSection) : List.Perm (sortByStart l) l := by
  simpa using foldl_insert_perm insertByStart insertByStart_perm l []

lemma sortByConfDesc_perm (l : List DetectedSection) : List.Perm (sortByConfDesc l) l := by
  simpa using foldl_insert_perm insertByConfDesc insertByConfDesc_perm l []

/-! ### `SectionExtractor`: overlap detection, merging and resolution -/

/-- `SectionExtractor.sectionsOverlap`:
`!(section1.endIndex <= section2.startIndex || section2.endIndex <= section1.startIndex)`. -/
def sectionsOverlap (s1 s2 : DetectedSection) : Bool :=
  !(decide (s1.endIndex ≤ s2.startIndex) || decide (s2.endIndex ≤ s1.startIndex))

/-- `SectionExtractor.mergeSections`: union span, rounded average confidence,
concatenated content/ids/patterns; the type comes from the more confident
input (merge metadata omitted). -/
def mergeSections (s1 s2 : DetectedSection) : DetectedSection where
  id := s1.id ++ "-merged-" ++ s2.id
  type := if s1.confidence > s2.confidence then s1.type else s2.type
  content := s1.content ++ " " ++ s2.content
  confidence := jsRound (((s1.confidence : ℚ) + (s2.confidence : ℚ)) / 2)
  startIndex := min s1.startIndex s2.startIndex
  endIndex := max s1.endIndex s2.endIndex
  patterns := s1.patterns ++ s2.patterns

/-- The inner `for (j ...)` loop of
`SectionExtractor.resolveOverlappingSections`: find the first already
resolved section overlapping `current`; replace it by `current` when
`current` has strictly higher confidence, merge when same type and a
confidence gap below 10, otherwise drop `current`.  `none` means no
overlap was found (so `current` is appended by the caller). -/
def resolveStep (current : DetectedSection) :
    List DetectedSection → Option (List DetectedSection)
  | [] => none
  | existing :: rest =>
    if sectionsOverlap current existing then
      some (
        if current.confidence > existing.confidence then current :: rest
        else if current.type = existing.type ∧
            |current.confidence - existing.confidence| < 10 then
          mergeSections current existing :: rest
        else existing :: rest)
    else (resolveStep current rest).map (fun r => existing :: r)

/-- The outer `for (i ...)` loop of `resolveOverlappingSections`, with the
running `overlapsResolved` counter. -/
def resolveGo : List DetectedSection → List DetectedSection → ℕ →
    List DetectedSection × ℕ
  | [], resolved, n => (resolved, n)
  | cur :: rest, resolved, n =>
    match resolveStep cur resolved with
    | some r => resolveGo rest r (n + 1)
    | none => resolveGo rest (resolved ++ [cur]) n

/-- `SectionExtractor.resolveOverlappingSections`: sort by start index, then
scan left to right resolving against the already accepted sections. -/
def resolveOverlappingSections (sections : List DetectedSection) :
    List DetectedSection × ℕ :=
  resolveGo (sortByStart sections) [] 0

/-- Span-disjointness in the spec's phrasing:
`¬(a.start < b.end ∧ b.start < a.end)`. -/
def NoOverlap (a b : DetectedSection) : Prop :=
  ¬(a.startIndex < b.endIndex ∧ b.startIndex < a.endIndex)

lemma sectionsOverlap_iff {a b : DetectedSection} :
    sectionsOverlap a b = true ↔ b.startIndex < a.endIndex ∧ a.startIndex < b.endIndex := by
  simp [sectionsOverlap, not_le, and_comm]

lemma noOverlap_iff_overlap_false {a b : DetectedSection} :
    NoOverlap a b ↔ sectionsOverlap a b = false := by
  rw [← Bool.not_eq_true, sectionsOverlap_iff]
  unfold NoOverlap
  tauto

lemma NoOverlap.symm {a b : DetectedSection} (h : NoOverlap a b) : NoOverlap b a := by
  unfold NoOverlap at h ⊢
  tauto

lemma noOverlap_symmetric : Symmetric NoOverlap := fun _ _ h => h.symm

/-- If `e` and `x` both start no later than `cur` does, and `cur` overlaps
both, then `e` and `x` overlap each other. -/
lemma overlap_through {cur e x : DetectedSection}
    (he : e.startIndex ≤ cur.startIndex) (hx : x.startIndex ≤ cur.startIndex)
    (hce : sectionsOverlap cur e = true) (hcx : sectionsOverlap cur x = true) :
    sectionsOverlap e x = true := by
  rw [sectionsOverlap_iff] at hce hcx ⊢
  constructor
  · linarith [hce.2]
  · linarith [hcx.2]

/-- If `e` and `x` both start no later than `cur`, `cur` overlaps `e`, and
the merge of `cur` and `e` overlaps `x`, then `e` overlaps `x`. -/
lemma overlap_through_merge {cur e x : DetectedSection}
    (he : e.startIndex ≤ cur.startIndex) (hx : x.startIndex ≤ cur.startIndex)
    (hce : sectionsOverlap cur e = true)
    (hmx : sectionsOverlap (mergeSections cur e) x = true) :
    sectionsOverlap e x = true := by
  rw [sectionsOverlap_iff] at hce hmx ⊢
  have hmin : (mergeSections cur e).startIndex = e.startIndex := by
    simp only [mergeSections]
    exact min_eq_right he
  rw [hmin] at hmx
  exact ⟨by linarith [hce.2], hmx.2⟩

lemma resolveStep_none {cur : DetectedSection} :
    ∀ {resolved : List DetectedSection}, resolveStep cur resolved = none →
      ∀ e ∈ resolved, sectionsOverlap cur e = false := by
  intro resolved
  induction resolved with
  | nil => intro _ e he; simp at he
  | cons f rest ih =>
    intro h e he
    unfold resolveStep at h
    by_cases hov : sectionsOverlap cur f = true
    · rw [if_pos hov] at h; exact absurd h (by simp)
    · rw [if_neg hov] at h
      rcases List.mem_cons.mp he with rfl | he
      · simpa using hov
      · exact ih (Option.map_eq_none.mp h) e he

lemma resolveStep_some_mem {cur : DetectedSection} :
    ∀ {resolved r : List DetectedSection}, resolveStep cur resolved = some r →
      ∀ y ∈ r, y ∈ resolved ∨ y = cur ∨
        ∃ f ∈ resolved, sectionsOverlap cur f = true ∧ y = mergeSections cur f := by
  intro resolved
  induction resolved with
  | nil => intro r h; simp [resolveStep] at h
  | cons f rest ih =>
    intro r h y hy
    unfold resolveStep at h
    by_cases hov : sectionsOverlap cur f = true
    · rw [if_pos hov] at h
      obtain rfl := Option.some.inj h
      split at hy
      · rcases List.mem_cons.mp hy with rfl | hy
        · exact Or.inr (Or.inl rfl)
        · exact Or.inl (List.mem_cons_of_mem f hy)
      · split at hy
        · rcases List.mem_cons.mp hy with rfl | hy
          · exact Or.inr (Or.inr ⟨f, List.mem_cons_self f rest, hov, rfl⟩)
          · exact Or.inl (List.mem_cons_of_mem f hy)
        · rcases List.mem_cons.mp hy with rfl | hy
          · exact Or.inl (List.mem_cons_self y rest)
          · exact Or.inl (List.mem_cons_of_mem f hy)
    · rw [if_neg hov] at h
      obtain ⟨r', hr', rfl⟩ := Option.map_eq_some'.mp h
      rcases List.mem_cons.mp hy with rfl | hy
      · exact Or.inl (List.mem_cons_self y rest)
      · rcases ih hr' y hy with hc | hc | ⟨g, hg, hog, hyg⟩
        · exact Or.inl (List.mem_cons_of_mem f hc)
        · exact Or.inr (Or.inl hc)
        · exact Or.inr (Or.inr ⟨g, List.mem_cons_of_mem f hg, hog, hyg⟩)

lemma resolveStep_some_invariant {cur : DetectedSection} :
    ∀ {resolved r : List DetectedSection}, resolveStep cur resolved = some r →
      (∀ e ∈ resolved, e.startIndex ≤ cur.startIndex) →
      List.Pairwise NoOverlap resolved →
      List.Pairwise NoOverlap r ∧ ∀ y ∈ r, y.startIndex ≤ cur.startIndex := by
  intro resolved
  induction resolved with
  | nil => intro r h; simp [resolveStep] at h
  | cons e rest ih =>
    intro r h hle hpw
    obtain ⟨hhead, htail⟩ := List.pairwise_cons.mp hpw
    have hecur : e.startIndex ≤ cur.startIndex := hle e (List.mem_cons_self e rest)
    have hrle : ∀ x ∈ rest, x.startIndex ≤ cur.startIndex :=
      fun x hx => hle x (List.mem_cons_of_mem e hx)
    unfold resolveStep at h
    by_cases hov : sectionsOverlap cur e = true
    · rw [if_pos hov] at h
      obtain rfl := Option.some.inj h
      constructor
      · split
        · -- replaced by `cur`
          refine List.pairwise_cons.mpr ⟨?_, htail⟩
          intro x hx
          have hex : NoOverlap e x := hhead x hx
          rw [noOverlap_iff_overlap_false, ← Bool.not_eq_true]
          intro hcx
          have h1 := overlap_through hecur (hrle x hx) hov hcx
          have h2 := noOverlap_iff_overlap_false.mp hex
          rw [h1] at h2
          exact absurd h2 (by simp)
        · split
          · -- merged
            refine List.pairwise_cons.mpr ⟨?_, htail⟩
            intro x hx
            have hex : NoOverlap e x := hhead x hx
            rw [noOverlap_iff_overlap_false, ← Bool.not_eq_true]
            intro hmx
            have h1 := overlap_through_merge hecur (hrle x hx) hov hmx
            have h2 := noOverlap_iff_overlap_false.mp hex
            rw [h1] at h2
            exact absurd h2 (by simp)
          · exact hpw
      · intro y hy
        split at hy
        · rcases List.mem_cons.mp hy with rfl | hy
          · exact le_refl _
          · exact hrle y hy
        · split at hy
          · rcases List.mem_cons.mp hy with rfl | hy
            · calc (mergeSections cur e).startIndex
                  = min cur.startIndex e.startIndex := by simp [mergeSections]
                _ ≤ cur.startIndex := min_le_left _ _
            · exact hrle y hy
          · rcases List.mem_cons.mp hy with rfl | hy
            · exact hecur
            · exact hrle y hy
    · rw [if_neg hov] at h
      obtain ⟨r', hr', rfl⟩ := Option.map_eq_some'.mp h
      obtain ⟨hpw', hle'⟩ := ih hr' hrle htail
      constructor
      · refine List.pairwise_cons.mpr ⟨?_, hpw'⟩
        intro y hy
        rcases resolveStep_some_mem hr' y hy with hc | rfl | ⟨g, hg, hog, rfl⟩
        · exact hhead y hc
        · exact (noOverlap_iff_overlap_false.mpr (by simpa using hov)).symm
        · -- `y = mergeSections cur g` with `g ∈ rest` disjoint from `e`
          have heg : NoOverlap e g := hhead g hg
          rw [noOverlap_iff_overlap_false, ← Bool.not_eq_true]
          intro hem
          rw [sectionsOverlap_iff] at hem hog
          have hmin : (mergeSections cur g).startIndex = g.startIndex := by
            simp only [mergeSections]
            exact min_eq_right (hrle g hg)
          have hgend : g.startIndex < e.endIndex := by
            rw [hmin] at hem
            exact hem.1
          have : ¬(e.startIndex < g.endIndex ∧ g.startIndex < e.endIndex) := heg
          have hgle : ¬(e.startIndex < g.endIndex) := fun hx => this ⟨hx, hgend⟩
          -- cur.start < g.end ≤ e.start ≤ cur.start
          have := hog.2
          have := hecur
          linarith [not_lt.mp hgle]
      · intro y hy
        rcases List.mem_cons.mp hy with rfl | hy
        · exact hecur
        · exact hle' y hy

lemma resolveGo_pairwise :
    ∀ (pending resolved : List DetectedSection) (n : ℕ),
      List.Pairwise (fun a b => a.startIndex ≤ b.startIndex) pending →
      (∀ e ∈ resolved, ∀ p ∈ pending, e.startIndex ≤ p.startIndex) →
      List.Pairwise NoOverlap resolved →
      List.Pairwise NoOverlap (resolveGo pending resolved n).1 := by
  intro pending
  induction pending with
  | nil => intro resolved n _ _ h; exact h
  | cons cur rest ih =>
    intro resolved n hpend hinv hpw
    obtain ⟨hcur, hrest⟩ := List.pairwise_cons.mp hpend
    have hle : ∀ e ∈ resolved, e.startIndex ≤ cur.startIndex :=
      fun e he => hinv e he cur (List.mem_cons_self cur rest)
    show List.Pairwise NoOverlap (match resolveStep cur resolved with
      | some r => resolveGo rest r (n + 1)
      | none => resolveGo rest (resolved ++ [cur]) n).1
    cases h : resolveStep cur resolved with
    | some r =>
      obtain ⟨hpw', hle'⟩ := resolveStep_some_invariant h hle hpw
      exact ih r (n + 1) hrest
        (fun e he p hp => le_trans (hle' e he) (hcur p hp)) hpw'
    | none =>
      refine ih (resolved ++ [cur]) n hrest ?_ ?_
      · intro e he p hp
        rcases List.mem_append.mp he with he | he
        · exact le_trans (hle e he) (hcur p hp)
        · simp at he
          exact he ▸ hcur p hp
      · rw [List.pairwise_append]
        refine ⟨hpw, List.pairwise_singleton _ _, ?_⟩
        intro x hx y hy
        simp at hy
        subst hy
        exact (noOverlap_iff_overlap_false.mpr (resolveStep_none h x hx)).symm

/-- The resolved list is pairwise span-disjoint. -/
lemma resolveOverlappingSections_pairwise (sections : List DetectedSection) :
    List.Pairwise NoOverlap (resolveOverlappingSections sections).1 :=
  resolveGo_pairwise (sortByStart sections) [] 0 (sortByStart_pairwise sections)
    (by simp) List.Pairwise.nil

/-! ### `SectionExtractor`: per-type cap, boundary expansion, extraction -/

/-- The key order of `sectionsByType` in `limitSectionsPerType`: object keys
iterate in first-insertion order, i.e. first occurrence of each type. -/
def typesInOrder (l : List DetectedSection) : List SectionType :=
  l.foldl (fun acc s => if s.type ∈ acc then acc else acc ++ [s.type]) []

/-- `SectionExtractor.limitSectionsPerType`: group by type (first-occurrence
key order), sort each group by descending confidence, keep the first
`maxPerType` of each group. -/
def limitSectionsPerType (sections : List DetectedSection) (maxPerType : ℕ) :
    List DetectedSection :=
  ((typesInOrder sections).map
    (fun t =>
      (sortByConfDesc (sections.filter (fun s => decide (s.type = t)))).take maxPerType)).flatten

lemma typesInOrder_nodup (l : List DetectedSection) : (typesInOrder l).Nodup := by
  have haux : ∀ (l : List DetectedSection) (acc : List SectionType), acc.Nodup →
      (l.foldl (fun acc s => if s.type ∈ acc then acc else acc ++ [s.type]) acc).Nodup := by
    intro l
    induction l with
    | nil => intro acc h; exact h
    | cons s ss ih =>
      intro acc h
      rw [List.foldl_cons]
      split
      · exact ih acc h
      · rename_i hmem
        exact ih _ (by simp [List.nodup_append, h, hmem])
  exact haux l [] List.nodup_nil

lemma limitSectionsPerType_pairwise {sections : List DetectedSection} {m : ℕ}
    (h : List.Pairwise NoOverlap sections) :
    List.Pairwise NoOverlap (limitSectionsPerType sections m) := by
  have hall : ∀ x ∈ sections, ∀ y ∈ sections, x ≠ y → NoOverlap x y :=
    fun x hx y hy hxy => List.Pairwise.forall noOverlap_symmetric h hx hy hxy
  have hg_mem : ∀ (t : SectionType) (x : DetectedSection),
      x ∈ (sortByConfDesc (sections.filter (fun s => decide (s.type = t)))).take m →
      x ∈ sections ∧ x.type = t := by
    intro t x hx
    have hx1 : x ∈ sortByConfDesc (sections.filter (fun s => decide (s.type = t))) :=
      List.take_subset m _ hx
    have hx2 : x ∈ sections.filter (fun s => decide (s.type = t)) :=
      (sortByConfDesc_perm _).subset hx1
    obtain ⟨hmem, htype⟩ := List.mem_filter.mp hx2
    exact ⟨hmem, of_decide_eq_true htype⟩
  have hg_pw : ∀ t : SectionType, List.Pairwise NoOverlap
      ((sortByConfDesc (sections.filter (fun s => decide (s.type = t)))).take m) := by
    intro t
    have h1 : List.Pairwise NoOverlap (sections.filter (fun s => decide (s.type = t))) :=
      List.Pairwise.sublist (List.filter_sublist sections) h
    have h2 := ((sortByConfDesc_perm
      (sections.filter (fun s => decide (s.type = t)))).pairwise_iff
        (fun hpq => NoOverlap.symm hpq)).mpr h1
    exact List.Pairwise.sublist (List.take_sublist m _) h2
  have hmain : ∀ (ts : List SectionType), ts.Nodup →
      List.Pairwise NoOverlap ((ts.map (fun t =>
        (sortByConfDesc (sections.filter (fun s => decide (s.type = t)))).take m)).flatten) := by
    intro ts
    induction ts with
    | nil => intro _; simp
    | cons t ts ih =>
      intro hnd
      obtain ⟨hnmem, hnd'⟩ := List.nodup_cons.mp hnd
      rw [List.map_cons, List.flatten_cons, List.pairwise_append]
      refine ⟨hg_pw t, ih hnd', ?_⟩
      intro x hx y hy
      obtain ⟨lt, hlt, hylt⟩ := List.mem_flatten.mp hy
      obtain ⟨t', ht', rfl⟩ := List.mem_map.mp hlt
      obtain ⟨hxs, hxt⟩ := hg_mem t x hx
      obtain ⟨hys, hyt⟩ := hg_mem t' y hylt
      have hne : x ≠ y := by
        intro hEq
        exact hnmem (by rw [← hxt, hEq, hyt]; exact ht')
      exact hall x hxs y hys hne
  exact hmain (typesInOrder sections) (typesInOrder_nodup sections)

/-- The regex test `/[.!?]\s+/.test(str)`: some sentence-terminator is
immediately followed by whitespace. -/
def punctWsTest (l : List Char) : Bool :=
  match l with
  | [] => false
  | _ :: rest => (l.zip rest).any (fun p => (p.1 == '.' || p.1 == '!' || p.1 == '?') && jsIsWs p.2)

/-- `ToIntegerOrInfinity` truncation of a rational towards zero. -/
def jsTruncQ (q : ℚ) : ℤ := if 0 ≤ q then ⌊q⌋ else ⌈q⌉

/-- `text.charAt(i)`: the one-character string at the truncated index, or
the empty string when out of range. -/
def jsCharAt (s : String) (q : ℚ) : String :=
  if 0 ≤ jsTruncQ q then
    match s.data.get? (jsTruncQ q).toNat with
    | some c => String.singleton c
    | none => ""
  else ""

/-- A single-character (or empty) string can never contain a terminator
*followed by* whitespace, so the boundary test of
`expandSectionBoundaries` is false on every `charAt` result. -/
lemma punctWsTest_charAt (s : String) (q : ℚ) :
    punctWsTest (jsCharAt s q).data = false := by
  unfold jsCharAt
  split
  · cases h : s.data.get? (jsTruncQ q).toNat with
    | none => rfl
    | some c => rfl
  · rfl

/-- The backwards scan
`while (newStart > 0 && !/[.!?]\s+/.test(text.charAt(newStart - 1))) newStart--`.
Each step lowers the position by exactly 1 and the loop cannot continue at
or below 0, so `⌈pos⌉` decrements always suffice: with that fuel the
recursion is the loop. -/
def scanBackGo (text : String) : ℕ → ℚ → ℚ
  | 0, pos => pos
  | fuel + 1, pos =>
    if 0 < pos ∧ punctWsTest (jsCharAt text (pos - 1)).data = false then
      scanBackGo text fuel (pos - 1)
    else pos

def scanBack (text : String) (pos : ℚ) : ℚ := scanBackGo text (Int.toNat ⌈pos⌉) pos

/-- The forwards scan
`while (newEnd < text.length && !/[.!?]\s+/.test(text.charAt(newEnd))) newEnd++`,
fuelled analogously. -/
def scanFwdGo (text : String) : ℕ → ℚ → ℚ
  | 0, pos => pos
  | fuel + 1, pos =>
    if pos < (text.data.length : ℚ) ∧ punctWsTest (jsCharAt text pos).data = false then
      scanFwdGo text fuel (pos + 1)
    else pos

def scanFwd (text : String) (pos : ℚ) : ℚ :=
  scanFwdGo text (Int.toNat ⌈(text.data.length : ℚ) - pos⌉) pos

/-- `String.prototype.substring(a, b)`: truncate the arguments to integers,
clamp into `[0, length]`, swap when out of order, slice. -/
def jsSubstring (s : String) (a b : ℚ) : String :=
  let n : ℤ := s.data.length
  let i := min (max (jsTruncQ a) 0) n
  let j := min (max (jsTruncQ b) 0) n
  ⟨(s.data.take (max i j).toNat).drop (min i j).toNat⟩

/-- `SectionExtractor.expandSectionBoundaries` on one section: scan outwards
for a sentence boundary (the per-character test never fires, so the scans
run to the text edges), then cap the expansion at 50% of the original span.
The unused `words` local of the source is dead code and omitted, and the
expansion metadata is dropped. -/
def expandSection (text : String) (s : DetectedSection) : DetectedSection :=
  let newStart0 := scanBack text s.startIndex
  let newEnd0 := scanFwd text s.endIndex
  let originalLength := s.endIndex - s.startIndex
  let maxExpansion := originalLength * (1/2 : ℚ)
  let newStart := max newStart0 (s.startIndex - maxExpansion)
  let newEnd := min newEnd0 (s.endIndex + maxExpansion)
  { s with
    content := jsTrim (jsSubstring text newStart newEnd)
    startIndex := newStart
    endIndex := newEnd }

def expandSectionBoundaries (sections : List DetectedSection) (text : String) :
    List DetectedSection :=
  sections.map (expandSection text)

/-- `SectionExtractionOptions` with the source's defaults. -/
structure SectionExtractionOptions where
  minConfidenceThreshold : ℤ := 30
  resolveOverlaps : Bool := true
  preserveContext : Bool := true
  maxSectionsPerType : ℕ := 3
deriving DecidableEq

/-- `SectionExtractor.extractSections` downstream of the orchestrator: the
analysis result's sections come in as a parameter (`extractSections` itself
passes `analyzeText(text).sections`); the extraction metadata block
(`totalBlocks` …) is omitted.  Pipeline: confidence filter, optional
boundary expansion, optional overlap resolution, per-type cap, positional
sort. -/
def extractSectionsFrom (analysisSections : List DetectedSection) (text : String)
    (opts : SectionExtractionOptions) : List DetectedSection :=
  let s1 := analysisSections.filter (fun s => decide (opts.minConfidenceThreshold ≤ s.confidence))
  let s2 := if opts.preserveContext = true then expandSectionBoundaries s1 text else s1
  let s3 := if opts.resolveOverlaps = true then (resolveOverlappingSections s2).1 else s2
  let s4 := limitSectionsPerType s3 opts.maxSectionsPerType
  sortByStart s4

/-- C1: for every input text and every set of detected sections, extraction
with `resolveOverlaps = true` returns a list in which no two sections
overlap: no pair satisfies `a.startIndex < b.endIndex ∧ b.startIndex <
a.endIndex`. -/
theorem extract_overlap_invariant (text : String)
    (analysisSections : List DetectedSection) (opts : SectionExtractionOptions)
    (h : opts.resolveOverlaps = true) :
    List.Pairwise NoOverlap (extractSectionsFrom analysisSections text opts) := by
  unfold extractSectionsFrom
  rw [h]
  simp only [if_true]
  apply ((sortByStart_perm _).pairwise_iff (fun hpq => NoOverlap.symm hpq)).mpr
  exact limitSectionsPerType_pairwise (resolveOverlappingSections_pairwise _)

/-- Witness for C1 at a concrete input (two genuinely overlapping detected
sections and the default options). -/
theorem extract_overlap_invariant_witness :
    List.Pairwise NoOverlap (extractSectionsFrom
      [{ id := "s0", type := SectionType.role, content := "x", confidence := 80,
         startIndex := 0, endIndex := 10, patterns := [] },
       { id := "s1", type := SectionType.task, content := "y", confidence := 60,
         startIndex := 5, endIndex := 15, patterns := [] }] "xxxxxxxxxxxxxxx" {}) :=
  extract_overlap_invariant "xxxxxxxxxxxxxxx" _ {} rfl

/-! ### Claim C2: merging of overlapping same-type sections -/

lemma sectionsOverlap_symm {a b : DetectedSection} (h : sectionsOverlap a b = true) :
    sectionsOverlap b a = true := by
  rw [sectionsOverlap_iff] at h ⊢
  exact ⟨h.2, h.1⟩

/-- A 65-confidence `role` section that starts first … -/
def cexLow : DetectedSection where
  id := "a"
  type := SectionType.role
  content := "alpha"
  confidence := 65
  startIndex := 0
  endIndex := 10
  patterns := []

/-- … and an overlapping 70-confidence `role` section that starts later. -/
def cexHigh : DetectedSection where
  id := "b"
  type := SectionType.role
  content := "beta"
  confidence := 70
  startIndex := 5
  endIndex := 15
  patterns := []

/-- C2 counterexample: overlap resolution does *not* merge two overlapping
same-type sections with confidences 70 and 65 regardless of order.  When
the 65-confidence section starts first, the later 70-confidence section
replaces it outright: the result is that section unchanged (span `[5, 15)`,
confidence 70), not a union-span section with confidence 68. -/
theorem resolve_no_merge_when_high_starts_later :
    (resolveOverlappingSections [cexLow, cexHigh]).1 = [cexHigh] ∧
      cexHigh.confidence = 70 ∧ cexHigh.startIndex = 5 ∧ cexHigh.endIndex = 15 ∧
      cexLow.startIndex = 0 := by
  refine ⟨?_, rfl, rfl, rfl, rfl⟩
  rfl

/-- C2 (amended): when, of two overlapping detected sections of the same
category with confidences 70 and 65, the 70-confidence one starts no later
(so it comes first in the sorted scan), overlap resolution merges them into
a single section spanning the union of the two spans with confidence 68
(the rounded average).  (When the 65-confidence section starts strictly
first, the 70-confidence one instead replaces it — see the counterexample.) -/
theorem resolve_merges_70_65_when_high_first (s1 s2 : DetectedSection)
    (htype : s1.type = s2.type) (h1 : s1.confidence = 70) (h2 : s2.confidence = 65)
    (hov : sectionsOverlap s1 s2 = true) (hle : s1.startIndex ≤ s2.startIndex) :
    (resolveOverlappingSections [s1, s2]).1 = [mergeSections s2 s1] ∧
      (mergeSections s2 s1).startIndex = min s1.startIndex s2.startIndex ∧
      (mergeSections s2 s1).endIndex = max s1.endIndex s2.endIndex ∧
      (mergeSections s2 s1).confidence = 68 ∧
      (mergeSections s2 s1).type = s1.type := by
  have hsort : sortByStart [s1, s2] = [s1, s2] := by
    unfold sortByStart
    rw [List.foldl_cons, List.foldl_cons, List.foldl_nil]
    show insertByStart s2 (insertByStart s1 []) = [s1, s2]
    rw [show insertByStart s1 [] = [s1] from rfl]
    show (if s2.startIndex < s1.startIndex then s2 :: s1 :: [] else s1 :: insertByStart s2 []) =
      [s1, s2]
    rw [if_neg (not_lt.mpr hle)]
    rfl
  have hovsym : sectionsOverlap s2 s1 = true := sectionsOverlap_symm hov
  have hngt : ¬(s2.confidence > s1.confidence) := by
    rw [h1, h2]
    decide
  have hcond : s2.type = s1.type ∧ |s2.confidence - s1.confidence| < 10 := by
    rw [h1, h2]
    exact ⟨htype.symm, by decide⟩
  have hstep2 : resolveStep s2 [s1] = some [mergeSections s2 s1] := by
    unfold resolveStep
    rw [if_pos hovsym, if_neg hngt, if_pos hcond]
  have hrun : (resolveOverlappingSections [s1, s2]).1 = [mergeSections s2 s1] := by
    unfold resolveOverlappingSections
    rw [hsort]
    show (resolveGo [s1, s2] [] 0).1 = _
    have e1 : resolveGo [s1, s2] [] 0 = resolveGo [s2] [s1] 0 := by
      show (match resolveStep s1 [] with
        | some r => resolveGo [s2] r 1
        | none => resolveGo [s2] ([] ++ [s1]) 0) = _
      rfl
    rw [e1]
    show (match resolveStep s2 [s1] with
      | some r => resolveGo [] r (0 + 1)
      | none => resolveGo [] ([s1] ++ [s2]) 0).1 = _
    rw [hstep2]
    rfl
  refine ⟨hrun, ?_, ?_, ?_, ?_⟩
  · show min s2.startIndex s1.startIndex = min s1.startIndex s2.startIndex
    exact min_comm _ _
  · show max s2.endIndex s1.endIndex = max s1.endIndex s2.endIndex
    exact max_comm _ _
  · show jsRound (((s2.confidence : ℚ) + (s1.confidence : ℚ)) / 2) = 68
    rw [h1, h2]
    unfold jsRound
    rw [show ((((65 : ℤ) : ℚ) + ((70 : ℤ) : ℚ)) / 2 + 1/2) = ((68 : ℤ) : ℚ) by norm_num]
    exact Int.floor_intCast 68
  · show (if s2.confidence > s1.confidence then s2.type else s1.type) = s1.type
    rw [if_neg hngt]

/-- Witness for C2 (amended) at concrete sections (70-confidence first). -/
theorem resolve_merges_70_65_witness :
    (resolveOverlappingSections [cexHigh, { cexLow with startIndex := 7, endIndex := 20 }]).1 =
        [mergeSections { cexLow with startIndex := 7, endIndex := 20 } cexHigh] ∧
      (mergeSections { cexLow with startIndex := 7, endIndex := 20 } cexHigh).startIndex =
        min cexHigh.startIndex ({ cexLow with startIndex := 7, endIndex := 20 } : DetectedSection).startIndex ∧
      (mergeSections { cexLow with startIndex := 7, endIndex := 20 } cexHigh).endIndex =
        max cexHigh.endIndex ({ cexLow with startIndex := 7, endIndex := 20 } : DetectedSection).endIndex ∧
      (mergeSections { cexLow with startIndex := 7, endIndex := 20 } cexHigh).confidence = 68 ∧
      (mergeSections { cexLow with startIndex := 7, endIndex := 20 } cexHigh).type = cexHigh.type :=
  resolve_merges_70_65_when_high_first cexHigh _ rfl rfl rfl (by decide) (by decide)

/-! ### `PatternMatcher` (claims C5, C10) -/

/-- The result of `lowerText.match(pattern)` reduced to what the matcher
consumes: `match[0]`, the first matched substring (`none` when the regex
does not match).  The regex engine is not part of the repository; every
theorem below holds for an arbitrary oracle. -/
def MatchOracle : Type := String → String → Option String

/-- `PatternMatcher.patterns`: the per-category rule table in source order
(`role`, `task`, `constraints`, `examples`, `outputFormat`); the `unknown`
category has no rules.  Each regex is carried as its `pattern.toString()`
text, consumed only by the oracle and the provenance field. -/
def patternsTable : List (SectionType × List String) :=
  [(SectionType.role,
    ["/you\\s+are\\s+(?:a|an)?\\s*([^.!?]*)/gi",
     "/act\\s+as\\s+(?:a|an)?\\s*([^.!?]*)/gi",
     "/assume\\s+(?:the\\s+)?role\\s+of\\s+(?:a|an)?\\s*([^.!?]*)/gi",
     "/as\\s+(?:a|an)\\s+([^,.\\n]*)/gi",
     "/take\\s+on\\s+the\\s+persona\\s+of\\s*([^.!?]*)/gi",
     "/your\\s+role\\s+is\\s+(?:to\\s+)?([^.!?]*)/gi",
     "/you\\s+will\\s+be\\s+acting\\s+as\\s*([^.!?]*)/gi"]),
   (SectionType.task,
    ["/(?:please\\s+)?(analyze|create|generate|summarize|write|develop|design|build|implement|explain|describe|compare|evaluate|assess|review)\\s+([^.!?]*)/gi",
     "/your\\s+task\\s+is\\s+to\\s+([^.!?]*)/gi",
     "/i\\s+need\\s+you\\s+to\\s+([^.!?]*)/gi",
     "/(?:can\\s+you\\s+)?(?:help\\s+me\\s+)?([^.!?]*\\b(?:analyze|create|generate|write|develop|design|build|implement)\\b[^.!?]*)/gi",
     "/complete\\s+the\\s+following\\s+([^.!?]*)/gi"]),
   (SectionType.constraints,
    ["/(?:don" ++ aposS ++ "t|do\\s+not|avoid|never|must\\s+not)\\s+([^.!?]*)/gi",
     "/within\\s+(\\d+)\\s+(words?|characters?|sentences?|paragraphs?)/gi",
     "/no\\s+more\\s+than\\s+([^.!?]*)/gi",
     "/maximum\\s+of?\\s+([^.!?]*)/gi",
     "/(?:only\\s+use|stick\\s+to|ensure\\s+that|make\\s+sure)\\s+([^.!?]*)/gi",
     "/(?:requirements?|constraints?|limitations?|restrictions?):\\s*([^.!?]*)/gi",
     "/keep\\s+it\\s+(simple|brief|concise|short|under\\s+\\d+)/gi"]),
   (SectionType.examples,
    ["/(?:for\\s+example|example|such\\s+as|like|including)\\s*:?\\s*([^.!?]*)/gi",
     "/(?:input|output|sample):\\s*([^.!?]*)/gi",
     "/(?:here" ++ aposS ++ "s?\\s+an?\\s+example|consider\\s+this\\s+example)\\s*:?\\s*([^.!?]*)/gi",
     "/example\\s+\\d+\\s*:?\\s*([^.!?]*)/gi",
     "/(?:first|second|third)\\s+example\\s*:?\\s*([^.!?]*)/gi"]),
   (SectionType.outputFormat,
    ["/(?:format|structure|output)\\s+(?:should\\s+be|as|in)\\s+([^.!?]*)/gi",
     "/(json|xml|csv|markdown|html|yaml|table)\\s+format/gi",
     "/respond\\s+(?:with|in|using)\\s+([^.!?]*)/gi",
     "/(?:bullet\\s+points|numbered\\s+list|table\\s+format)/gi",
     "/(?:concise|detailed|step-by-step|structured)\\s+(?:format|response)/gi",
     "/present\\s+(?:the\\s+)?(?:results?|information|data)\\s+(?:in|as|using)\\s+([^.!?]*)/gi"])]

/-- `PatternMatch` from `src/types` as consumed here. -/
structure PatternMatch where
  type : SectionType
  confidence : ℚ
  matchedText : String
  matchedPatterns : List String
  startIndex : ℤ
  endIndex : ℤ
deriving DecidableEq

def idxAux (needle : List Char) : List Char → ℕ → Option ℕ
  | [], k => if needle = [] then some k else none
  | c :: rest, k =>
    if needle.isPrefixOf (c :: rest) then some k else idxAux needle rest (k + 1)

/-- `String.prototype.indexOf` (search from 0): first occurrence or −1. -/
def jsIndexOf (hay needle : String) : ℤ :=
  match idxAux needle.data hay.data 0 with
  | some i => (i : ℤ)
  | none => -1

/-- `String.prototype.includes`. -/
def jsIncludes (hay needle : String) : Bool :=
  hay.data.tails.any (fun t => needle.data.isPrefixOf t)

/-- The keyword list of `calculatePatternScore`
(`['you are', 'analyze', 'create', "don't", 'example', 'format']`). -/
def scoreKeywords : List String :=
  ["you are", "analyze", "create", "don" ++ aposS ++ "t", "example", "format"]

/-- `PatternMatcher.calculatePatternScore` on `match[0]` and the lower-cased
text: `min(coverage * 2, 0.8)` plus `0.2` when the matched text contains a
scoring keyword, clamped to 1.  (Division by a zero length follows the
rational convention `x / 0 = 0`; in that case no score can clear the
acceptance floor, matching the NaN behaviour of the source.) -/
def calculatePatternScore (matched : String) (text : String) : ℚ :=
  let coverage : ℚ := (matched.data.length : ℚ) / (text.data.length : ℚ)
  let score := min (coverage * 2) (4/5)
  let keywordBonus : ℚ :=
    if scoreKeywords.any (fun k => jsIncludes (jsToLower matched) k) then 1/5 else 0
  min (score + keywordBonus) 1

/-- The per-category inner fold of `matchPatterns`: keep the first rule
attaining the strictly largest positive score (`score > maxScore`, with
`maxScore` starting at 0). -/
def bestRuleMatch (oracle : MatchOracle) (lowerText : String) (pats : List String) :
    Option (String × String) × ℚ :=
  pats.foldl (fun b pat =>
    match oracle pat lowerText with
    | some m0 =>
      if calculatePatternScore m0 lowerText > b.2 then
        (some (m0, pat), calculatePatternScore m0 lowerText)
      else b
    | none => b) (none, 0)

/-- The mutable `patternStats` counters of the Pattern Matcher. -/
structure PatternStats where
  role : ℕ := 0
  task : ℕ := 0
  constraints : ℕ := 0
  examples : ℕ := 0
  outputFormat : ℕ := 0
  unknown : ℕ := 0
deriving DecidableEq

/-- `this.patternStats[sectionType]++`. -/
def PatternStats.bump (st : PatternStats) : SectionType → PatternStats
  | SectionType.role => { st with role := st.role + 1 }
  | SectionType.task => { st with task := st.task + 1 }
  | SectionType.constraints => { st with constraints := st.constraints + 1 }
  | SectionType.examples => { st with examples := st.examples + 1 }
  | SectionType.outputFormat => { st with outputFormat := st.outputFormat + 1 }
  | SectionType.unknown => { st with unknown := st.unknown + 1 }

/-- Stable insertion, descending by match confidence. -/
def insertMatchByConfDesc (x : PatternMatch) : List PatternMatch → List PatternMatch
  | [] => [x]
  | y :: ys =>
    if x.confidence > y.confidence then x :: y :: ys else y :: insertMatchByConfDesc x ys

/-- `matches.sort((a, b) => b.confidence - a.confidence)`. -/
def sortMatchesByConfDesc (l : List PatternMatch) : List PatternMatch :=
  l.foldl (fun acc x => insertMatchByConfDesc x acc) []

/-- One `Object.entries(this.patterns)` iteration of `matchPatterns`:
accept the best rule match of the entry's category when its score clears
the 0.3 floor, count it in `patternStats`. -/
def matchPatternsStep (oracle : MatchOracle) (lowerText : String)
    (acc : List PatternMatch × PatternStats) (entry : SectionType × List String) :
    List PatternMatch × PatternStats :=
  match bestRuleMatch oracle lowerText entry.2 with
  | (some (m0, pat), maxScore) =>
    if maxScore > 3/10 then
      (acc.1 ++ [{ type := entry.1, confidence := maxScore, matchedText := m0,
                   matchedPatterns := [pat],
                   startIndex := jsIndexOf lowerText m0,
                   endIndex := jsIndexOf lowerText m0 + m0.data.length }],
       acc.2.bump entry.1)
    else acc
  | (none, _) => acc

/-- `PatternMatcher.matchPatterns`, with the `patternStats` state threaded:
lower-case the input, for every category keep the best-scoring rule match
above the acceptance floor, and return the matches sorted by descending
confidence. -/
def matchPatterns (oracle : MatchOracle) (st : PatternStats) (text : String) :
    List PatternMatch × PatternStats :=
  let lowerText := jsToLower text
  let res := patternsTable.foldl (matchPatternsStep oracle lowerText) ([], st)
  (sortMatchesByConfDesc res.1, res.2)

/-! ### Claim C5: the Pattern Matcher contract -/

lemma jsToLower_length (s : String) : (jsToLower s).data.length = s.data.length := by
  simp [jsToLower]

lemma bestRuleMatch_score (oracle : MatchOracle) (lowerText : String) :
    ∀ (pats : List String) (b : Option (String × String) × ℚ),
      (∀ m0 pat, b.1 = some (m0, pat) → b.2 = calculatePatternScore m0 lowerText) →
      ∀ m0 pat,
        (pats.foldl (fun b pat =>
          match oracle pat lowerText with
          | some m0 =>
            if calculatePatternScore m0 lowerText > b.2 then
              (some (m0, pat), calculatePatternScore m0 lowerText)
            else b
          | none => b) b).1 = some (m0, pat) →
        (pats.foldl (fun b pat =>
          match oracle pat lowerText with
          | some m0 =>
            if calculatePatternScore m0 lowerText > b.2 then
              (some (m0, pat), calculatePatternScore m0 lowerText)
            else b
          | none => b) b).2 = calculatePatternScore m0 lowerText := by
  intro pats
  induction pats with
  | nil => intro b hb; exact hb
  | cons p ps ih =>
    intro b hb
    rw [List.foldl_cons]
    apply ih
    cases h : oracle p lowerText with
    | none => exact hb
    | some m =>
      intro m0 pat heq
      by_cases hgt : calculatePatternScore m lowerText > b.2
      · simp only [if_pos hgt] at heq ⊢
        replace heq : some (m, p) = some (m0, pat) := heq
        simp only [Option.some.injEq, Prod.mk.injEq] at heq
        obtain ⟨rfl, rfl⟩ := heq
        rfl
      · simp only [if_neg hgt] at heq ⊢
        exact hb m0 pat heq

lemma bestRuleMatch_spec (oracle : MatchOracle) (lowerText : String) (pats : List String) :
    ∀ m0 pat, (bestRuleMatch oracle lowerText pats).1 = some (m0, pat) →
      (bestRuleMatch oracle lowerText pats).2 = calculatePatternScore m0 lowerText := by
  intro m0 pat h
  exact bestRuleMatch_score oracle lowerText pats (none, 0) (by intro _ _ hc; cases hc) m0 pat h

lemma matchPatterns_mem_aux (oracle : MatchOracle) (lowerText : String) :
    ∀ (entries : List (SectionType × List String)) (acc : List PatternMatch × PatternStats),
      ∀ m ∈ (entries.foldl (matchPatternsStep oracle lowerText) acc).1,
        m ∈ acc.1 ∨
          (m.confidence > 3/10 ∧
           m.confidence = calculatePatternScore m.matchedText lowerText ∧
           ∃ e ∈ entries, m.type = e.1) := by
  intro entries
  induction entries with
  | nil => intro acc m hm; exact Or.inl hm
  | cons e es ih =>
    intro acc m hm
    rw [List.foldl_cons] at hm
    rcases ih _ m hm with hin | ⟨h1, h2, e', he', h3⟩
    · unfold matchPatternsStep at hin
      split at hin
      · rename_i m0 pat maxScore heq
        split at hin
        · rename_i hgt
          rcases List.mem_append.mp hin with hacc | hnew
          · exact Or.inl hacc
          · simp only [List.mem_singleton] at hnew
            subst hnew
            refine Or.inr ⟨hgt, ?_, e, List.mem_cons_self e es, rfl⟩
            have hs := bestRuleMatch_spec oracle lowerText e.2 m0 pat (by rw [heq])
            rw [heq] at hs
            exact hs
        · exact Or.inl hin
      · exact Or.inl hin
    · exact Or.inr ⟨h1, h2, e', List.mem_cons_of_mem e he', h3⟩

lemma foldl_insert_perm_g {α : Type} (ins : α → List α → List α)
    (hins : ∀ x l, List.Perm (ins x l) (x :: l)) :
    ∀ (l acc : List α), List.Perm (l.foldl (fun acc x => ins x acc) acc) (l ++ acc) := by
  intro l
  induction l with
  | nil => intro acc; simp
  | cons x xs ih =>
    intro acc
    show List.Perm (xs.foldl (fun acc x => ins x acc) (ins x acc)) ((x :: xs) ++ acc)
    refine (ih (ins x acc)).trans ?_
    refine (List.Perm.append_left xs (hins x acc)).trans ?_
    exact List.perm_middle

lemma insertMatchByConfDesc_perm (x : PatternMatch) (l : List PatternMatch) :
    List.Perm (insertMatchByConfDesc x l) (x :: l) := by
  induction l with
  | nil => rfl
  | cons y ys ih =>
    simp only [insertMatchByConfDesc]
    split
    · rfl
    · exact (List.Perm.cons y ih).trans (List.Perm.swap x y ys)

lemma sortMatchesByConfDesc_perm (l : List PatternMatch) :
    List.Perm (sortMatchesByConfDesc l) l := by
  simpa using foldl_insert_perm_g insertMatchByConfDesc insertMatchByConfDesc_perm l []

lemma mem_insertMatchByConfDesc {x z : PatternMatch} : ∀ {l : List PatternMatch},
    z ∈ insertMatchByConfDesc x l → z = x ∨ z ∈ l := by
  intro l
  induction l with
  | nil => simp [insertMatchByConfDesc]
  | cons y ys ih =>
    simp only [insertMatchByConfDesc]
    split
    · intro h
      rcases List.mem_cons.mp h with h | h
      · exact Or.inl h
      · exact Or.inr h
    · intro h
      rcases List.mem_cons.mp h with h | h
      · exact Or.inr (h ▸ List.mem_cons_self y ys)
      · rcases ih h with h | h
        · exact Or.inl h
        · exact Or.inr (List.mem_cons_of_mem y h)

lemma insertMatchByConfDesc_pairwise {x : PatternMatch} {l : List PatternMatch}
    (h : List.Pairwise (fun a b => b.confidence ≤ a.confidence) l) :
    List.Pairwise (fun a b => b.confidence ≤ a.confidence) (insertMatchByConfDesc x l) := by
  induction l with
  | nil => simp [insertMatchByConfDesc]
  | cons y ys ih =>
    obtain ⟨hy, hys⟩ := List.pairwise_cons.mp h
    simp only [insertMatchByConfDesc]
    split
    · rename_i hlt
      refine List.pairwise_cons.mpr ⟨?_, h⟩
      intro z hz
      rcases List.mem_cons.mp hz with rfl | hz
      · exact le_of_lt hlt
      · exact le_trans (hy z hz) (le_of_lt hlt)
    · rename_i hnlt
      refine List.pairwise_cons.mpr ⟨?_, ih hys⟩
      intro z hz
      rcases mem_insertMatchByConfDesc hz with rfl | hz
      · exact le_of_not_lt hnlt
      · exact hy z hz

lemma sortMatchesByConfDesc_pairwise (l : List PatternMatch) :
    List.Pairwise (fun a b => b.confidence ≤ a.confidence) (sortMatchesByConfDesc l) := by
  have haux : ∀ (l acc : List PatternMatch),
      List.Pairwise (fun a b => b.confidence ≤ a.confidence) acc →
      List.Pairwise (fun a b => b.confidence ≤ a.confidence)
        (l.foldl (fun acc x => insertMatchByConfDesc x acc) acc) := by
    intro l
    induction l with
    | nil => intro acc h; exact h
    | cons x xs ih => intro acc h; exact ih _ (insertMatchByConfDesc_pairwise h)
  exact haux l [] List.Pairwise.nil

lemma matchFold_count (oracle : MatchOracle) (lowerText : String) :
    ∀ (entries : List (SectionType × List String)) (acc : List PatternMatch × PatternStats)
      (t : SectionType),
      ((entries.foldl (matchPatternsStep oracle lowerText) acc).1.filter
        (fun m => decide (m.type = t))).length ≤
      (acc.1.filter (fun m => decide (m.type = t))).length +
        (entries.filter (fun e => decide (e.1 = t))).length := by
  intro entries
  induction entries with
  | nil => intro acc t; simp
  | cons e es ih =>
    intro acc t
    rw [List.foldl_cons]
    have hstep : ((matchPatternsStep oracle lowerText acc e).1.filter
        (fun m => decide (m.type = t))).length ≤
        (acc.1.filter (fun m => decide (m.type = t))).length +
          (if e.1 = t then 1 else 0) := by
      unfold matchPatternsStep
      split
      · split
        · simp only [List.filter_append, List.length_append, List.filter_cons, List.filter_nil]
          by_cases ht : e.1 = t <;> simp [ht]
        · by_cases ht : e.1 = t <;> simp [ht]
      · by_cases ht : e.1 = t <;> simp [ht]
    have hIH := ih (matchPatternsStep oracle lowerText acc e) t
    have hcons : ((e :: es).filter (fun e => decide (e.1 = t))).length =
        (if e.1 = t then 1 else 0) + (es.filter (fun e => decide (e.1 = t))).length := by
      rw [List.filter_cons]
      by_cases ht : e.1 = t <;> simp [ht] <;> omega
    omega

lemma patternsTable_count_le_one (t : SectionType) :
    (patternsTable.filter (fun e => decide (e.1 = t))).length ≤ 1 := by
  cases t <;> decide

/-- C5: for every oracle and every input text, `matchPatterns` returns at
most one match per category, every returned match has raw score above the
0.3 acceptance floor, the matches are sorted by descending confidence, and
each match's raw score is `min(len(matchedText)/len(text) * 2, 0.8)` plus
`0.2` when the matched text contains a scoring keyword, clamped to 1. -/
theorem matchPatterns_contract (oracle : MatchOracle) (st : PatternStats) (text : String) :
    (∀ t : SectionType,
      ((matchPatterns oracle st text).1.filter (fun m => decide (m.type = t))).length ≤ 1) ∧
    (∀ m ∈ (matchPatterns oracle st text).1, m.confidence > 3/10) ∧
    List.Pairwise (fun a b => b.confidence ≤ a.confidence) (matchPatterns oracle st text).1 ∧
    (∀ m ∈ (matchPatterns oracle st text).1,
      m.confidence =
        min (min ((m.matchedText.data.length : ℚ) / (text.data.length : ℚ) * 2) (4/5) +
          (if scoreKeywords.any (fun k => jsIncludes (jsToLower m.matchedText) k)
            then 1/5 else 0)) 1) := by
  have hperm : List.Perm (matchPatterns oracle st text).1
      (patternsTable.foldl (matchPatternsStep oracle (jsToLower text)) ([], st)).1 :=
    sortMatchesByConfDesc_perm _
  have hmem : ∀ m ∈ (matchPatterns oracle st text).1,
      m.confidence > 3/10 ∧
        m.confidence = calculatePatternScore m.matchedText (jsToLower text) := by
    intro m hm
    rcases matchPatterns_mem_aux oracle (jsToLower text) patternsTable ([], st) m
        (hperm.subset hm) with hin | ⟨h1, h2, -⟩
    · simp at hin
    · exact ⟨h1, h2⟩
  refine ⟨?_, fun m hm => (hmem m hm).1, ?_, ?_⟩
  · intro t
    have hflen : ((matchPatterns oracle st text).1.filter
        (fun m => decide (m.type = t))).length =
        ((patternsTable.foldl (matchPatternsStep oracle (jsToLower text)) ([], st)).1.filter
          (fun m => decide (m.type = t))).length :=
      (hperm.filter _).length_eq
    rw [hflen]
    calc ((patternsTable.foldl (matchPatternsStep oracle (jsToLower text)) ([], st)).1.filter
            (fun m => decide (m.type = t))).length
        ≤ (([] : List PatternMatch).filter (fun m => decide (m.type = t))).length +
            (patternsTable.filter (fun e => decide (e.1 = t))).length :=
          matchFold_count oracle (jsToLower text) patternsTable ([], st) t
      _ ≤ 1 := by simpa using patternsTable_count_le_one t
  · exact sortMatchesByConfDesc_pairwise _
  · intro m hm
    have h2 := (hmem m hm).2
    unfold calculatePatternScore at h2
    rw [jsToLower_length] at h2
    exact h2

/-! ### `ContextAnalyzer` and the length-band tables (claim C4) -/

/-- The literal name of a category, as it appears in template strings. -/
def SectionType.name : SectionType → String
  | SectionType.role => "role"
  | SectionType.task => "task"
  | SectionType.constraints => "constraints"
  | SectionType.examples => "examples"
  | SectionType.outputFormat => "outputFormat"
  | SectionType.unknown => "unknown"

/-- `ContextAnalyzer.getSequenceBonus`'s `expectedOrder` array. -/
def expectedOrder : List SectionType :=
  [SectionType.role, SectionType.task, SectionType.constraints,
   SectionType.examples, SectionType.outputFormat]

/-- `ContextAnalyzer.getSequenceBonus`: 0 for a category outside the
expected order, else `max(0, 0.1 − |blockIndex − expectedIndex| * 0.02)`. -/
def getSequenceBonus (t : SectionType) (blockIndex : ℕ) : ℚ :=
  match expectedOrder.indexOf? t with
  | none => 0
  | some i => max 0 (1/10 - |(blockIndex : ℚ) - (i : ℚ)| * (2/100))

/-- A regex word character, `[A-Za-z0-9_]`. -/
def isWordChar (c : Char) : Bool :=
  ('a' ≤ c && c ≤ 'z') || ('A' ≤ c && c ≤ 'Z') || ('0' ≤ c && c ≤ '9') || c == '_'

def wordCharAt (l : List Char) (i : ℕ) : Bool :=
  match l[i]? with
  | some c => isWordChar c
  | none => false

/-- Occurrences of `new RegExp(`\b<word>\b`, 'gi')` in a text: positions
where the lowered word occurs flanked by non-word characters (or the text
edges).  For an all-word-character word such matches can never overlap, so
counting positions equals the global regex match count. -/
def countWordOccurrences (word : String) (text : String) : ℕ :=
  let w := (jsToLower word).data
  let l := (jsToLower text).data
  ((List.range (l.length + 1)).filter (fun i =>
    w.isPrefixOf (l.drop i) &&
    !(decide (0 < i) && wordCharAt l (i - 1)) &&
    !wordCharAt l (i + w.length))).length

/-- `ContextAnalyzer.getTypeConflictPenalty`:
`0.05 * (occurrences − 1)` when the category name occurs as a word more
than once in the full text. -/
def getTypeConflictPenalty (t : SectionType) (fullText : String) : ℚ :=
  let typeOccurrences := countWordOccurrences t.name fullText
  if typeOccurrences > 1 then (5/100) * ((typeOccurrences : ℚ) - 1) else 0

/-- The `optimalLengths` band table of `ContextAnalyzer.getLengthBonus`
(`unknown` has max `Infinity`, represented by `none`). -/
def caOptimalLengths : SectionType → ℕ × Option ℕ
  | SectionType.role => (20, some 100)
  | SectionType.task => (30, some 200)
  | SectionType.constraints => (20, some 150)
  | SectionType.examples => (40, some 300)
  | SectionType.outputFormat => (15, some 80)
  | SectionType.unknown => (0, none)

/-- `ContextAnalyzer.getLengthBonus`: flat +0.05 when the block length lies
inside the category's `optimalLengths` band, else 0. -/
def getLengthBonus (t : SectionType) (length : ℕ) : ℚ :=
  let optimal := caOptimalLengths t
  if optimal.1 ≤ length &&
      (match optimal.2 with
       | some mx => decide (length ≤ mx)
       | none => true) then 1/20
  else 0

/-- Membership in the Context Analyzer's own band (the spec's sense of "the
block's character length falls inside that category's optimal range"). -/
def caInBand (t : SectionType) (length : ℕ) : Bool :=
  (caOptimalLengths t).1 ≤ length &&
    (match (caOptimalLengths t).2 with
     | some mx => decide (length ≤ mx)
     | none => true)

/-- The `optimalRanges` table of
`ConfidenceScorer.getLengthConfidenceMultiplier` (§4.2,
confidenceScorer.ts). -/
structure LengthRange where
  lo : ℕ
  hi : ℕ
  optimal : ℕ
deriving DecidableEq

def scorerOptimalRanges : SectionType → LengthRange
  | SectionType.role => ⟨20, 150, 60⟩
  | SectionType.task => ⟨30, 300, 100⟩
  | SectionType.constraints => ⟨20, 200, 80⟩
  | SectionType.examples => ⟨50, 500, 150⟩
  | SectionType.outputFormat => ⟨15, 100, 40⟩
  | SectionType.unknown => ⟨10, 1000, 100⟩

/-- `ConfidenceScorer.getLengthConfidenceMultiplier` (§4.2): 0.8× below the
band, 0.9× above it, otherwise `1.0 + (0.1 − |len − optimal|/optimal * 0.1)`. -/
def getLengthConfidenceMultiplier (t : SectionType) (length : ℕ) : ℚ :=
  let range := scorerOptimalRanges t
  if length < range.lo then 4/5
  else if length > range.hi then 9/10
  else 1 + (1/10 - (|(length : ℚ) - (range.optimal : ℚ)| / (range.optimal : ℚ)) * (1/10))

/-- Membership in the Confidence Scorer's §4.2 band. -/
def scorerInBand (t : SectionType) (length : ℕ) : Bool :=
  (scorerOptimalRanges t).lo ≤ length && length ≤ (scorerOptimalRanges t).hi

/-- C4 counterexample: a `role` block of length 120 receives *no* length
bonus from the Context Analyzer (its own band is 20–100), although 120 lies
inside the Confidence Scorer's §4.2 `role` band 20–150 — and 120 is not in
either penalty branch of the §4.2 multiplier. -/
theorem lengthBonus_band_mismatch :
    getLengthBonus SectionType.role 120 = 0 ∧
      scorerInBand SectionType.role 120 = true ∧
      getLengthConfidenceMultiplier SectionType.role 120 = 1 := by
  refine ⟨by decide, by decide, ?_⟩
  show (if (120 : ℕ) < 20 then (4/5 : ℚ)
    else if (120 : ℕ) > 150 then 9/10
    else 1 + (1/10 - (|((120 : ℕ) : ℚ) - ((60 : ℕ) : ℚ)| / ((60 : ℕ) : ℚ)) * (1/10))) = 1
  norm_num

/-- C4 (amended): the Context Analyzer's flat +0.05 bonus is granted
exactly when the block length lies inside the Context Analyzer's *own*
`optimalLengths` band (role 20–100, task 30–200, constraints 20–150,
examples 40–300, outputFormat 15–80, unknown unbounded); these bands are
*not* the Confidence Scorer's §4.2 bands (role 20–150, task 30–300,
constraints 20–200, examples 50–500, outputFormat 15–100, unknown
10–1000). -/
theorem lengthBonus_characterization :
    (∀ (t : SectionType) (len : ℕ),
        (getLengthBonus t len = 1/20 ↔ caInBand t len = true) ∧
        (getLengthBonus t len = 1/20 ∨ getLengthBonus t len = 0)) ∧
      ¬(∀ (t : SectionType) (len : ℕ), caInBand t len = true ↔ scorerInBand t len = true) := by
  constructor
  · intro t len
    by_cases hcond : (decide ((caOptimalLengths t).1 ≤ len) &&
        (match (caOptimalLengths t).2 with
         | some mx => decide (len ≤ mx)
         | none => true)) = true
    · constructor
      · simp only [getLengthBonus, caInBand, hcond, if_true]
      · simp only [getLengthBonus, hcond, if_true]
        trivial
    · constructor
      · simp only [getLengthBonus, caInBand, hcond, if_false]
        exact ⟨fun h0 => absurd h0 (by norm_num),
               fun hc => absurd hc (by simp [hcond])⟩
      · simp only [getLengthBonus, hcond, if_false]
        exact Or.inr rfl
  · intro h
    have := (h SectionType.role 120).mpr (by decide)
    exact absurd this (by decide)

/-! ### `ContextAnalyzer.analyzeContext` and the orchestrator -/

/-- `TextBlock`: a contiguous slice of the source text. -/
structure TextBlock where
  content : String
  startIndex : ℤ
  endIndex : ℤ
deriving DecidableEq

/-- One element of `analyzeContext`'s input; the source names the
candidate list `matches`, which is a reserved word here. -/
structure BlockMatches where
  block : TextBlock
  blockIndex : ℕ
  candidates : List PatternMatch
deriving DecidableEq

/-- One element of `analyzeContext`'s output. -/
structure ContextualMatch where
  block : TextBlock
  blockIndex : ℕ
  bestMatch : Option PatternMatch
  confidence : ℚ
deriving DecidableEq

/-- `ContextAnalyzer.calculateContextualConfidence`: raw confidence plus
sequence bonus minus conflict penalty plus length bonus, clamped to
`[0, 1]`. -/
def calculateContextualConfidence (m : PatternMatch) (blockText : String)
    (fullText : String) (blockIndex : ℕ) : ℚ :=
  max 0 (min 1 (m.confidence + getSequenceBonus m.type blockIndex
    - getTypeConflictPenalty m.type fullText + getLengthBonus m.type blockText.data.length))

/-- The best-candidate scan of `analyzeContext`: start from the first
candidate, replace on strictly higher contextual confidence. -/
def pickBest (fullText : String) (blockText : String) (blockIndex : ℕ) :
    List PatternMatch → Option (PatternMatch × ℚ)
  | [] => none
  | m :: ms =>
    some (ms.foldl (fun best cur =>
      if calculateContextualConfidence cur blockText fullText blockIndex > best.2 then
        (cur, calculateContextualConfidence cur blockText fullText blockIndex)
      else best)
      (m, calculateContextualConfidence m blockText fullText blockIndex))

/-- One block of `ContextAnalyzer.analyzeContext`: a block with no
candidates yields `bestMatch = none, confidence = 0`. -/
def analyzeContextOne (fullText : String) (bm : BlockMatches) : ContextualMatch :=
  match pickBest fullText bm.block.content bm.blockIndex bm.candidates with
  | none =>
    { block := bm.block, blockIndex := bm.blockIndex, bestMatch := none, confidence := 0 }
  | some best =>
    { block := bm.block, blockIndex := bm.blockIndex,
      bestMatch := some best.1, confidence := best.2 }

/-- `ContextAnalyzer.analyzeContext`, with the `totalAnalyses` counter
threaded (processing-time bookkeeping omitted). -/
def analyzeContext (totalAnalyses : ℕ) (ms : List BlockMatches) (fullText : String) :
    List ContextualMatch × ℕ :=
  (ms.map (analyzeContextOne fullText), totalAnalyses + 1)

/-- The result record of `ContextAnalyzer.analyzeWithContext`. -/
structure ContextualAnalysis where
  suggestedType : Option SectionType
  confidence : ℚ
  matchedPatterns : List String
deriving DecidableEq

/-- `ContextAnalyzer.analyzeWithContext`: evaluate the first candidate
against the stitched-together context, used by re-analysis. -/
def analyzeWithContext (text before after : String) (patterns : List PatternMatch) :
    ContextualAnalysis :=
  match patterns with
  | [] => { suggestedType := none, confidence := 0, matchedPatterns := [] }
  | bestPattern :: _ =>
    { suggestedType := some bestPattern.type
      confidence := calculateContextualConfidence bestPattern text (before ++ text ++ after) 0
      matchedPatterns := bestPattern.matchedPatterns }

/-- A `learnFromFeedback` record of the Context Analyzer. -/
structure FeedbackRecord where
  text : String
  oldType : SectionType
  newType : SectionType
  wasCorrect : Bool
deriving DecidableEq

/-- Leftmost match length of the paragraph-break regex `\n\s*\n` at the
head of `l`: a newline, the greedy (backtracking) `\s*` running to the last
newline of the following whitespace run, then that newline. -/
def lastNewlineIdx : List Char → Option ℕ
  | [] => none
  | c :: rest =>
    match lastNewlineIdx rest with
    | some p => some (p + 1)
    | none => if c = '\n' then some 0 else none

def paraMatchLen (l : List Char) : Option ℕ :=
  match l with
  | [] => none
  | c :: rest =>
    if c = '\n' then
      match lastNewlineIdx (rest.takeWhile jsIsWs) with
      | some p => some (p + 2)
      | none => none
    else none

/-- Leftmost match length of the sentence-break regex `[.!?]+\s+` at the
head of `l` (both classes are disjoint, so greedy matching needs no
backtracking). -/
def sentenceMatchLen (l : List Char) : Option ℕ :=
  let punct := l.takeWhile (fun c => c == '.' || c == '!' || c == '?')
  if punct.length = 0 then none
  else
    let ws := (l.drop punct.length).takeWhile jsIsWs
    if ws.length = 0 then none else some (punct.length + ws.length)

/-- `String.prototype.split(regex)`: scan left to right, cutting at each
leftmost match.  Fuelled by the input length (every step consumes at least
one character; both separator patterns have length ≥ 2). -/
def splitGo (matchLen : List Char → Option ℕ) :
    ℕ → List Char → List Char → List (List Char)
  | 0, accRev, rest => [accRev.reverse ++ rest]
  | fuel + 1, accRev, rest =>
    match rest with
    | [] => [accRev.reverse]
    | c :: rest' =>
      match matchLen (c :: rest') with
      | some k => accRev.reverse :: splitGo matchLen fuel [] ((c :: rest').drop k)
      | none => splitGo matchLen fuel (c :: accRev) rest'

def jsSplit (matchLen : List Char → Option ℕ) (l : List Char) : List (List Char) :=
  splitGo matchLen (l.length + 1) [] l

/-- `String.prototype.indexOf(needle, fromIndex)`. -/
def jsIndexOfFrom (hay needle : String) (fromIndex : ℤ) : ℤ :=
  match idxAux needle.data (hay.data.drop fromIndex.toNat) fromIndex.toNat with
  | some i => (i : ℤ)
  | none => -1

/-- The block-accumulation loop shared by `splitIntoBlocks` and
`splitBySentences`: trim each piece, skip empties, locate each trimmed
piece in the source text starting from the running cursor. -/
def buildBlocks (text : String) (pieces : List (List Char)) : List TextBlock :=
  (pieces.foldl (fun (acc : List TextBlock × ℤ) piece =>
    let trimmed := jsTrimList piece
    if trimmed = [] then acc
    else
      let startIndex := jsIndexOfFrom text ⟨trimmed⟩ acc.2
      let endIndex := startIndex + trimmed.length
      (acc.1 ++ [{ content := ⟨trimmed⟩, startIndex := startIndex, endIndex := endIndex }],
       endIndex))
    ([], 0)).1

/-- `TextAnalyzer.splitBySentences`. -/
def splitBySentences (text : String) : List TextBlock :=
  buildBlocks text (jsSplit sentenceMatchLen text.data)

/-- `TextAnalyzer.splitIntoBlocks`: paragraph split, sentence fallback for
long texts without paragraph breaks. -/
def splitIntoBlocks (text : String) : List TextBlock :=
  let blocks := buildBlocks text (jsSplit paraMatchLen text.data)
  if blocks.length ≤ 1 ∧ text.data.length > 100 then splitBySentences text else blocks

/-- `TextAnalyzer.generateDetectedSections`: keep blocks with a best match,
number the survivors, round the contextual confidence to an integer
percentage. -/
def generateDetectedSections (cms : List ContextualMatch) : List DetectedSection :=
  (cms.filter (fun m => m.bestMatch.isSome)).enum.map (fun p =>
    { id := "section-" ++ toString p.1
      type := match p.2.bestMatch with
        | some bm => bm.type
        | none => SectionType.unknown
      content := p.2.block.content
      confidence := jsRound (p.2.confidence * 100)
      startIndex := (p.2.block.startIndex : ℚ)
      endIndex := (p.2.block.endIndex : ℚ)
      patterns := match p.2.bestMatch with
        | some bm => bm.matchedPatterns
        | none => [] })

/-- `new Set(sections.map(s => s.type)).size`. -/
def distinctTypes (sections : List DetectedSection) : List SectionType :=
  (sections.map (fun s => s.type)).dedup

/-- `TextAnalyzer.calculateOverallConfidence`: mean section confidence plus
a diversity bonus `min(5 * distinct types, 20)`, rounded and capped at
100. -/
def calculateOverallConfidence (sections : List DetectedSection) : ℤ :=
  if sections.length = 0 then 0
  else
    let totalConfidence : ℤ := (sections.map (fun s => s.confidence)).sum
    let averageConfidence : ℚ := (totalConfidence : ℚ) / (sections.length : ℚ)
    let diversityBonus : ℚ := min (((distinctTypes sections).length : ℚ) * 5) 20
    min (jsRound (averageConfidence + diversityBonus)) 100

/-- An `errors` entry of `AnalysisResult`. -/
structure ErrorEntry where
  type : String
  message : String
  severity : String
deriving DecidableEq

/-- `AnalysisResult` (processing time omitted). -/
structure AnalysisResult where
  sections : List DetectedSection
  confidence : ℤ
  errors : List ErrorEntry
deriving DecidableEq

/-- The mutable state of one `TextAnalyzer` pipeline instance: the Pattern
Matcher's counters, the Confidence Scorer's history (that scorer is never
invoked by `analyzeText`), the Context Analyzer's analysis counter and
feedback records.  Timing state is omitted. -/
structure AnalyzerState where
  patternStats : PatternStats := {}
  confidenceHistory : List ℚ := []
  totalAnalyses : ℕ := 0
  feedbackData : List FeedbackRecord := []
deriving DecidableEq

/-- Step 2 of `analyzeText`: run the Pattern Matcher on each block,
threading `patternStats`. -/
def matchBlocks (oracle : MatchOracle) :
    List (ℕ × TextBlock) → PatternStats → List BlockMatches × PatternStats
  | [], st => ([], st)
  | (i, b) :: rest, st =>
    let pm := matchPatterns oracle st b.content
    let res := matchBlocks oracle rest pm.2
    ({ block := b, blockIndex := i, candidates := pm.1 } :: res.1, res.2)

/-- `TextAnalyzer.analyzeText`.  Timing is omitted.  In this embedding
steps 2–6 are total functions, so the catch-all `analysis_error` branch of
the source is unreachable and `errors` is always `[]`. -/
def analyzeText (oracle : MatchOracle) (st : AnalyzerState) (text : String) :
    AnalysisResult × AnalyzerState :=
  if jsTrim text = "" then
    ({ sections := [], confidence := 0, errors := [] }, st)
  else
    let blocks := splitIntoBlocks text
    let pm := matchBlocks oracle blocks.enum st.patternStats
    let cm := analyzeContext st.totalAnalyses pm.1 text
    let sections := generateDetectedSections cm.1
    ({ sections := sections, confidence := calculateOverallConfidence sections, errors := [] },
     { st with patternStats := pm.2, totalAnalyses := cm.2 })

/-- The optional user feedback of `reanalyzeSectionWithContext`. -/
structure UserFeedback where
  correctedType : SectionType
  wasCorrect : Bool
deriving DecidableEq

/-- `TextAnalyzer.reanalyzeSectionWithContext`: re-match the isolated
section text, re-evaluate with ±200 characters of context, optionally
record feedback, fall back to the original category when disambiguation
yields nothing (re-analysis metadata omitted; the console log ignored). -/
def reanalyzeSectionWithContext (oracle : MatchOracle) (st : AnalyzerState)
    (s : DetectedSection) (fullText : String) (userFeedback : Option UserFeedback) :
    DetectedSection × AnalyzerState :=
  let sectionText := jsSubstring fullText s.startIndex s.endIndex
  let contextBefore := jsSubstring fullText (max 0 (s.startIndex - 200)) s.startIndex
  let contextAfter :=
    jsSubstring fullText s.endIndex (min ((fullText.data.length : ℚ)) (s.endIndex + 200))
  let pm := matchPatterns oracle st.patternStats sectionText
  let ca := analyzeWithContext sectionText contextBefore contextAfter pm.1
  let st' : AnalyzerState :=
    match userFeedback with
    | some fb =>
      { st with
          patternStats := pm.2
          feedbackData := st.feedbackData ++
            [{ text := sectionText, oldType := s.type,
               newType := fb.correctedType, wasCorrect := fb.wasCorrect }] }
    | none => { st with patternStats := pm.2 }
  ({ s with
      type := ca.suggestedType.getD s.type
      confidence := jsRound (ca.confidence * 100)
      patterns := ca.matchedPatterns }, st')

/-- `SectionExtractor.extractSections` end to end: analysis followed by the
extraction pipeline. -/
def extractSections (oracle : MatchOracle) (st : AnalyzerState) (text : String)
    (opts : SectionExtractionOptions) : List DetectedSection :=
  extractSectionsFrom (analyzeText oracle st text).1.sections text opts

/-! ### Claim C6: totality of `analyzeText` -/

/-- C6: `analyzeText` is total over all inputs: a blank or whitespace-only
input returns `{sections: [], confidence: 0, errors: []}` (state
untouched), and every result is a structured value with an empty `errors`
list — in this embedding steps 2–6 are total functions, so the source's
catch-all `analysis_error` branch is unreachable. -/
theorem analyzeText_total (oracle : MatchOracle) (st : AnalyzerState) (text : String) :
    (jsTrim text = "" →
      analyzeText oracle st text = ({ sections := [], confidence := 0, errors := [] }, st)) ∧
    (analyzeText oracle st text).1.errors = [] := by
  constructor
  · intro h
    unfold analyzeText
    rw [if_pos h]
  · unfold analyzeText
    split
    · rfl
    · rfl

/-- Witness for C6 at the whitespace-only input `" \n "`. -/
theorem analyzeText_total_witness :
    analyzeText (fun _ _ => none) {} " \n " =
      ({ sections := [], confidence := 0, errors := [] }, {}) :=
  (analyzeText_total (fun _ _ => none) {} " \n ").1 (by decide)

/-! ### Claim C9: determinism of `analyzeText` across runs -/

lemma matchPatternsStep_fst (oracle : MatchOracle) (lowerText : String)
    (a : List PatternMatch) (st st' : PatternStats) (e : SectionType × List String) :
    (matchPatternsStep oracle lowerText (a, st) e).1 =
      (matchPatternsStep oracle lowerText (a, st') e).1 := by
  unfold matchPatternsStep
  cases hbr : bestRuleMatch oracle lowerText e.2 with
  | mk o sc =>
    cases o with
    | none => rfl
    | some pr =>
      obtain ⟨m0, pat⟩ := pr
      by_cases hgt : sc > 3/10 <;> simp [hgt]

lemma matchFold_fst_indep (oracle : MatchOracle) (lowerText : String) :
    ∀ (entries : List (SectionType × List String)) (a : List PatternMatch)
      (st st' : PatternStats),
      (entries.foldl (matchPatternsStep oracle lowerText) (a, st)).1 =
        (entries.foldl (matchPatternsStep oracle lowerText) (a, st')).1 := by
  intro entries
  induction entries with
  | nil => intro a st st'; rfl
  | cons e es ih =>
    intro a st st'
    rw [List.foldl_cons, List.foldl_cons]
    have h1 := matchPatternsStep_fst oracle lowerText a st st' e
    calc (es.foldl (matchPatternsStep oracle lowerText)
            (matchPatternsStep oracle lowerText (a, st) e)).1
        = (es.foldl (matchPatternsStep oracle lowerText)
            ((matchPatternsStep oracle lowerText (a, st) e).1,
             (matchPatternsStep oracle lowerText (a, st) e).2)).1 := by rw [Prod.mk.eta]
      _ = (es.foldl (matchPatternsStep oracle lowerText)
            ((matchPatternsStep oracle lowerText (a, st') e).1,
             (matchPatternsStep oracle lowerText (a, st) e).2)).1 := by rw [h1]
      _ = (es.foldl (matchPatternsStep oracle lowerText)
            ((matchPatternsStep oracle lowerText (a, st') e).1,
             (matchPatternsStep oracle lowerText (a, st') e).2)).1 := ih _ _ _
      _ = (es.foldl (matchPatternsStep oracle lowerText)
            (matchPatternsStep oracle lowerText (a, st') e)).1 := by rw [Prod.mk.eta]

lemma matchPatterns_fst_indep (oracle : MatchOracle) (text : String)
    (st st' : PatternStats) :
    (matchPatterns oracle st text).1 = (matchPatterns oracle st' text).1 := by
  unfold matchPatterns
  exact congrArg sortMatchesByConfDesc
    (matchFold_fst_indep oracle (jsToLower text) patternsTable [] st st')

lemma matchBlocks_fst_indep (oracle : MatchOracle) :
    ∀ (l : List (ℕ × TextBlock)) (st st' : PatternStats),
      (matchBlocks oracle l st).1 = (matchBlocks oracle l st').1 := by
  intro l
  induction l with
  | nil => intro st st'; rfl
  | cons p rest ih =>
    intro st st'
    obtain ⟨i, b⟩ := p
    have h1 := matchPatterns_fst_indep oracle b.content st st'
    have h2 := ih (matchPatterns oracle st b.content).2 (matchPatterns oracle st' b.content).2
    simp only [matchBlocks]
    rw [h1, h2]

lemma analyzeText_fst_indep (oracle : MatchOracle) (text : String)
    (st st' : AnalyzerState) :
    (analyzeText oracle st text).1 = (analyzeText oracle st' text).1 := by
  unfold analyzeText
  split
  · rfl
  · simp only [analyzeContext]
    rw [matchBlocks_fst_indep oracle (splitIntoBlocks text).enum
      st.patternStats st'.patternStats]

/-- C9: `analyzeText` is deterministic across repeated runs on the same
pipeline instance: re-running on the mutable state left behind by a first
run (pattern counters, analysis counter, feedback and history) returns
exactly the same result — sections (content, category, confidence,
boundaries), overall confidence and errors.  (`processingTimeMs`, the one
field the claim leaves free, is not modelled.) -/
theorem analyzeText_deterministic (oracle : MatchOracle) (st : AnalyzerState)
    (text : String) :
    (analyzeText oracle (analyzeText oracle st text).2 text).1 =
      (analyzeText oracle st text).1 :=
  analyzeText_fst_indep oracle text _ st

/-! ### Claim C10: the `unknown` category is never produced -/

lemma pickBest_mem {ft bt : String} {bi : ℕ} :
    ∀ {ms : List PatternMatch} {b : PatternMatch × ℚ},
      pickBest ft bt bi ms = some b → b.1 ∈ ms := by
  intro ms
  cases ms with
  | nil => intro b h; cases h
  | cons m rest =>
    intro b h
    obtain rfl := Option.some.inj h.symm
    have haux : ∀ (l : List PatternMatch) (init : PatternMatch × ℚ),
        init.1 ∈ m :: rest → (∀ x ∈ l, x ∈ m :: rest) →
        (l.foldl (fun best cur =>
          if calculateContextualConfidence cur bt ft bi > best.2 then
            (cur, calculateContextualConfidence cur bt ft bi)
          else best) init).1 ∈ m :: rest := by
      intro l
      induction l with
      | nil => intro init h1 _; exact h1
      | cons c cs ihl =>
        intro init h1 h2
        rw [List.foldl_cons]
        refine ihl _ ?_ (fun x hx => h2 x (List.mem_cons_of_mem c hx))
        split
        · exact h2 c (List.mem_cons_self c cs)
        · exact h1
    exact haux rest (m, calculateContextualConfidence m bt ft bi)
      (List.mem_cons_self m rest) (fun x hx => List.mem_cons_of_mem m hx)

lemma analyzeContextOne_best {ft : String} {bm : BlockMatches} {b : PatternMatch}
    (h : (analyzeContextOne ft bm).bestMatch = some b) : b ∈ bm.candidates := by
  unfold analyzeContextOne at h
  cases hp : pickBest ft bm.block.content bm.blockIndex bm.candidates with
  | none => rw [hp] at h; cases h
  | some best =>
    rw [hp] at h
    obtain rfl := Option.some.inj h
    exact pickBest_mem hp

lemma matchBlocks_candidates (oracle : MatchOracle) :
    ∀ (l : List (ℕ × TextBlock)) (st : PatternStats) (bm : BlockMatches),
      bm ∈ (matchBlocks oracle l st).1 →
      ∃ (st2 : PatternStats) (s2 : String),
        bm.candidates = (matchPatterns oracle st2 s2).1 := by
  intro l
  induction l with
  | nil => intro st bm h; simp [matchBlocks] at h
  | cons p rest ih =>
    intro st bm h
    obtain ⟨i, b⟩ := p
    simp only [matchBlocks] at h
    rcases List.mem_cons.mp h with rfl | h
    · exact ⟨st, b.content, rfl⟩
    · exact ih _ bm h

lemma patternsTable_types :
    ∀ e ∈ patternsTable, e.1 ∈ [SectionType.role, SectionType.task,
      SectionType.constraints, SectionType.examples, SectionType.outputFormat] := by
  decide

lemma matchPatterns_type_five (oracle : MatchOracle) (st : PatternStats) (text : String) :
    ∀ m ∈ (matchPatterns oracle st text).1,
      m.type ∈ [SectionType.role, SectionType.task, SectionType.constraints,
        SectionType.examples, SectionType.outputFormat] := by
  intro m hm
  have hperm : List.Perm (matchPatterns oracle st text).1
      (patternsTable.foldl (matchPatternsStep oracle (jsToLower text)) ([], st)).1 :=
    sortMatchesByConfDesc_perm _
  rcases matchPatterns_mem_aux oracle (jsToLower text) patternsTable ([], st) m
      (hperm.subset hm) with hin | ⟨-, -, e, he, hty⟩
  · simp at hin
  · exact hty ▸ patternsTable_types e he

lemma snd_mem_of_mem_enumFrom {α : Type} :
    ∀ (l : List α) (n : ℕ) (p : ℕ × α), p ∈ l.enumFrom n → p.2 ∈ l := by
  intro l
  induction l with
  | nil => intro n p h; simp [List.enumFrom] at h
  | cons x xs ih =>
    intro n p h
    rw [List.enumFrom] at h
    rcases List.mem_cons.mp h with rfl | h
    · exact List.mem_cons_self x xs
    · exact List.mem_cons_of_mem x (ih (n + 1) p h)

lemma generateDetectedSections_type {cms : List ContextualMatch} {s : DetectedSection}
    (h : s ∈ generateDetectedSections cms) :
    ∃ cm ∈ cms, ∃ b : PatternMatch, cm.bestMatch = some b ∧ s.type = b.type := by
  unfold generateDetectedSections at h
  obtain ⟨p, hp, rfl⟩ := List.mem_map.mp h
  have hp2 : p.2 ∈ cms.filter (fun m => m.bestMatch.isSome) :=
    snd_mem_of_mem_enumFrom _ 0 p hp
  obtain ⟨hmem, hsome⟩ := List.mem_filter.mp hp2
  obtain ⟨b, hb⟩ := Option.isSome_iff_exists.mp (by simpa using hsome)
  exact ⟨p.2, hmem, b, hb, by rw [hb]⟩

/-- C10: the rule table contains no rules for the `unknown` category, the
Pattern Matcher therefore never produces an `unknown` match, and every
section returned by `analyzeText` carries one of the five concrete
categories — never `unknown`. -/
theorem no_unknown_category (oracle : MatchOracle) (st : AnalyzerState)
    (pst : PatternStats) (text : String) :
    (∀ e ∈ patternsTable, e.1 ≠ SectionType.unknown) ∧
    (∀ m ∈ (matchPatterns oracle pst text).1, m.type ≠ SectionType.unknown) ∧
    (∀ s ∈ (analyzeText oracle st text).1.sections,
      s.type ∈ [SectionType.role, SectionType.task, SectionType.constraints,
        SectionType.examples, SectionType.outputFormat] ∧
      s.type ≠ SectionType.unknown) := by
  refine ⟨by decide, ?_, ?_⟩
  · intro m hm
    have h5 := matchPatterns_type_five oracle pst text m hm
    intro hcon
    rw [hcon] at h5
    exact absurd h5 (by decide)
  · intro s hs
    have h5 : s.type ∈ [SectionType.role, SectionType.task, SectionType.constraints,
        SectionType.examples, SectionType.outputFormat] := by
      unfold analyzeText at hs
      split at hs
      · simp at hs
      · simp only [analyzeContext] at hs
        obtain ⟨cm, hcm, b, hb, hty⟩ := generateDetectedSections_type hs
        obtain ⟨bm, hbm, rfl⟩ := List.mem_map.mp hcm
        have hbc : b ∈ bm.candidates := analyzeContextOne_best hb
        obtain ⟨st2, s2, hc⟩ := matchBlocks_candidates oracle _ _ bm hbm
        rw [hc] at hbc
        exact hty ▸ matchPatterns_type_five oracle st2 s2 b hbc
    refine ⟨h5, ?_⟩
    intro hcon
    rw [hcon] at h5
    exact absurd h5 (by decide)

/-! ### Claim C7: confidence bounds -/

/-- The confidence bounds invariant for detected sections. -/
def ConfOK (s : DetectedSection) : Prop := 0 ≤ s.confidence ∧ s.confidence ≤ 100

lemma jsRound_bounds {q : ℚ} (h0 : 0 ≤ q) (h1 : q ≤ 100) :
    0 ≤ jsRound q ∧ jsRound q ≤ 100 := by
  unfold jsRound
  constructor
  · exact Int.le_floor.mpr (by push_cast; linarith)
  · have h2 : (⌊q + 1/2⌋ : ℤ) < 101 := Int.floor_lt.mpr (by push_cast; linarith)
    omega

lemma calculatePatternScore_bounds (matched text : String) :
    0 ≤ calculatePatternScore matched text ∧ calculatePatternScore matched text ≤ 1 := by
  unfold calculatePatternScore
  have hcov : (0 : ℚ) ≤ (matched.data.length : ℚ) / (text.data.length : ℚ) :=
    div_nonneg (by positivity) (by positivity)
  have hscore : (0 : ℚ) ≤ min ((matched.data.length : ℚ) / (text.data.length : ℚ) * 2) (4/5) :=
    le_min (by positivity) (by norm_num)
  have hkb : (0 : ℚ) ≤
      (if scoreKeywords.any (fun k => jsIncludes (jsToLower matched) k) then (1 : ℚ)/5 else 0) := by
    split <;> norm_num
  exact ⟨le_min (by linarith) (by norm_num), min_le_right _ _⟩

lemma calculateContextualConfidence_bounds (m : PatternMatch) (bt ft : String) (bi : ℕ) :
    0 ≤ calculateContextualConfidence m bt ft bi ∧
      calculateContextualConfidence m bt ft bi ≤ 1 := by
  unfold calculateContextualConfidence
  exact ⟨le_max_left 0 _, max_le (by norm_num) (min_le_left 1 _)⟩

lemma pickBest_conf_bounds {ft bt : String} {bi : ℕ} :
    ∀ {ms : List PatternMatch} {b : PatternMatch × ℚ},
      pickBest ft bt bi ms = some b → 0 ≤ b.2 ∧ b.2 ≤ 1 := by
  intro ms
  cases ms with
  | nil => intro b h; cases h
  | cons m rest =>
    intro b h
    obtain rfl := Option.some.inj h.symm
    have haux : ∀ (l : List PatternMatch) (init : PatternMatch × ℚ),
        0 ≤ init.2 ∧ init.2 ≤ 1 →
        0 ≤ (l.foldl (fun best cur =>
          if calculateContextualConfidence cur bt ft bi > best.2 then
            (cur, calculateContextualConfidence cur bt ft bi)
          else best) init).2 ∧
        (l.foldl (fun best cur =>
          if calculateContextualConfidence cur bt ft bi > best.2 then
            (cur, calculateContextualConfidence cur bt ft bi)
          else best) init).2 ≤ 1 := by
      intro l
      induction l with
      | nil => intro init h1; exact h1
      | cons c cs ihl =>
        intro init h1
        rw [List.foldl_cons]
        refine ihl _ ?_
        split
        · exact calculateContextualConfidence_bounds c bt ft bi
        · exact h1
    exact haux rest (m, calculateContextualConfidence m bt ft bi)
      (calculateContextualConfidence_bounds m bt ft bi)

lemma analyzeContextOne_conf_bounds (ft : String) (bm : BlockMatches) :
    0 ≤ (analyzeContextOne ft bm).confidence ∧ (analyzeContextOne ft bm).confidence ≤ 1 := by
  unfold analyzeContextOne
  cases hp : pickBest ft bm.block.content bm.blockIndex bm.candidates with
  | none => exact ⟨le_refl 0, by norm_num⟩
  | some best => exact pickBest_conf_bounds hp

lemma generateDetectedSections_conf {cms : List ContextualMatch} {s : DetectedSection}
    (h : s ∈ generateDetectedSections cms) :
    ∃ cm ∈ cms, s.confidence = jsRound (cm.confidence * 100) := by
  unfold generateDetectedSections at h
  obtain ⟨p, hp, rfl⟩ := List.mem_map.mp h
  have hp2 : p.2 ∈ cms.filter (fun m => m.bestMatch.isSome) :=
    snd_mem_of_mem_enumFrom _ 0 p hp
  exact ⟨p.2, (List.mem_filter.mp hp2).1, rfl⟩

lemma analyzeText_sections_confOK (oracle : MatchOracle) (st : AnalyzerState)
    (text : String) :
    ∀ s ∈ (analyzeText oracle st text).1.sections, ConfOK s := by
  intro s hs
  unfold analyzeText at hs
  split at hs
  · simp at hs
  · simp only [analyzeContext] at hs
    obtain ⟨cm, hcm, hconf⟩ := generateDetectedSections_conf hs
    obtain ⟨bm, hbm, rfl⟩ := List.mem_map.mp hcm
    have hb := analyzeContextOne_conf_bounds text bm
    constructor
    · rw [hconf]
      exact (jsRound_bounds (by nlinarith [hb.1]) (by nlinarith [hb.1, hb.2])).1
    · rw [hconf]
      exact (jsRound_bounds (by nlinarith [hb.1]) (by nlinarith [hb.1, hb.2])).2

lemma mergeSections_confOK {s1 s2 : DetectedSection} (h1 : ConfOK s1) (h2 : ConfOK s2) :
    ConfOK (mergeSections s1 s2) := by
  obtain ⟨h1a, h1b⟩ := h1
  obtain ⟨h2a, h2b⟩ := h2
  have hcast1a : (0 : ℚ) ≤ (s1.confidence : ℚ) := by exact_mod_cast h1a
  have hcast1b : (s1.confidence : ℚ) ≤ 100 := by exact_mod_cast h1b
  have hcast2a : (0 : ℚ) ≤ (s2.confidence : ℚ) := by exact_mod_cast h2a
  have hcast2b : (s2.confidence : ℚ) ≤ 100 := by exact_mod_cast h2b
  have hb := jsRound_bounds
    (q := ((s1.confidence : ℚ) + (s2.confidence : ℚ)) / 2) (by linarith) (by linarith)
  exact hb

lemma resolveGo_confOK :
    ∀ (pending resolved : List DetectedSection) (n : ℕ),
      (∀ s ∈ pending, ConfOK s) → (∀ s ∈ resolved, ConfOK s) →
      ∀ s ∈ (resolveGo pending resolved n).1, ConfOK s := by
  intro pending
  induction pending with
  | nil => intro resolved n _ h s hs; exact h s hs
  | cons cur rest ih =>
    intro resolved n hp hr
    have hcur : ConfOK cur := hp cur (List.mem_cons_self cur rest)
    have hrest : ∀ s ∈ rest, ConfOK s := fun s hs => hp s (List.mem_cons_of_mem cur hs)
    show ∀ s ∈ (match resolveStep cur resolved with
      | some r => resolveGo rest r (n + 1)
      | none => resolveGo rest (resolved ++ [cur]) n).1, ConfOK s
    cases h : resolveStep cur resolved with
    | some r =>
      refine ih r (n + 1) hrest ?_
      intro s hs
      rcases resolveStep_some_mem h s hs with hin | rfl | ⟨f, hf, -, rfl⟩
      · exact hr s hin
      · exact hcur
      · exact mergeSections_confOK hcur (hr f hf)
    | none =>
      refine ih (resolved ++ [cur]) n hrest ?_
      intro s hs
      rcases List.mem_append.mp hs with hs | hs
      · exact hr s hs
      · simp at hs
        exact hs ▸ hcur

lemma limitSectionsPerType_subset {sections : List DetectedSection} {m : ℕ}
    {x : DetectedSection} (h : x ∈ limitSectionsPerType sections m) : x ∈ sections := by
  unfold limitSectionsPerType at h
  obtain ⟨g, hg, hxg⟩ := List.mem_flatten.mp h
  obtain ⟨t, -, rfl⟩ := List.mem_map.mp hg
  have hx1 := List.take_subset m _ hxg
  have hx2 := (sortByConfDesc_perm _).subset hx1
  exact (List.mem_filter.mp hx2).1

lemma extractSectionsFrom_confOK {analysisSections : List DetectedSection}
    (text : String) (opts : SectionExtractionOptions)
    (h : ∀ s ∈ analysisSections, ConfOK s) :
    ∀ s ∈ extractSectionsFrom analysisSections text opts, ConfOK s := by
  intro s hs
  unfold extractSectionsFrom at hs
  have hs4 := (sortByStart_perm _).subset hs
  have hs3 := limitSectionsPerType_subset hs4
  have h1 : ∀ x ∈ analysisSections.filter
      (fun s => decide (opts.minConfidenceThreshold ≤ s.confidence)), ConfOK x :=
    fun x hx => h x (List.mem_filter.mp hx).1
  have h2 : ∀ x ∈ (if opts.preserveContext = true
      then expandSectionBoundaries (analysisSections.filter
        (fun s => decide (opts.minConfidenceThreshold ≤ s.confidence))) text
      else analysisSections.filter
        (fun s => decide (opts.minConfidenceThreshold ≤ s.confidence))), ConfOK x := by
    intro x hx
    split at hx
    · obtain ⟨y, hy, rfl⟩ := List.mem_map.mp hx
      exact h1 y hy
    · exact h1 x hx
  split at hs3
  · exact resolveGo_confOK _ [] 0
      (fun x hx => h2 x ((sortByStart_perm _).subset hx)) (by simp) s hs3
  · exact h2 s hs3

/-- C7: every detected section produced by analysis, extraction (boundary
expansion, overlap resolution and merging included) or re-analysis has an
integer confidence (the `confidence` field is `ℤ`) within `[0, 100]`, and
the internal pre-rounding scores — the Pattern Matcher's raw score and the
Context Analyzer's contextual confidence — lie in `[0, 1]`. -/
theorem confidence_bounds (oracle : MatchOracle) (st : AnalyzerState) (text : String)
    (opts : SectionExtractionOptions) (s0 : DetectedSection) (fullText : String)
    (fb : Option UserFeedback) (matched t2 : String) (m : PatternMatch)
    (bt ft : String) (bi : ℕ) :
    (∀ s ∈ (analyzeText oracle st text).1.sections,
      0 ≤ s.confidence ∧ s.confidence ≤ 100) ∧
    (∀ s ∈ extractSections oracle st text opts,
      0 ≤ s.confidence ∧ s.confidence ≤ 100) ∧
    (0 ≤ (reanalyzeSectionWithContext oracle st s0 fullText fb).1.confidence ∧
      (reanalyzeSectionWithContext oracle st s0 fullText fb).1.confidence ≤ 100) ∧
    (0 ≤ calculatePatternScore matched t2 ∧ calculatePatternScore matched t2 ≤ 1) ∧
    (0 ≤ calculateContextualConfidence m bt ft bi ∧
      calculateContextualConfidence m bt ft bi ≤ 1) := by
  refine ⟨analyzeText_sections_confOK oracle st text, ?_, ?_,
    calculatePatternScore_bounds matched t2,
    calculateContextualConfidence_bounds m bt ft bi⟩
  · exact extractSectionsFrom_confOK text opts (analyzeText_sections_confOK oracle st text)
  · show ConfOK (reanalyzeSectionWithContext oracle st s0 fullText fb).1
    unfold reanalyzeSectionWithContext
    have hca : 0 ≤ (analyzeWithContext (jsSubstring fullText s0.startIndex s0.endIndex)
        (jsSubstring fullText (max 0 (s0.startIndex - 200)) s0.startIndex)
        (jsSubstring fullText s0.endIndex
          (min ((fullText.data.length : ℚ)) (s0.endIndex + 200)))
        (matchPatterns oracle st.patternStats
          (jsSubstring fullText s0.startIndex s0.endIndex)).1).confidence ∧
        (analyzeWithContext (jsSubstring fullText s0.startIndex s0.endIndex)
        (jsSubstring fullText (max 0 (s0.startIndex - 200)) s0.startIndex)
        (jsSubstring fullText s0.endIndex
          (min ((fullText.data.length : ℚ)) (s0.endIndex + 200)))
        (matchPatterns oracle st.patternStats
          (jsSubstring fullText s0.startIndex s0.endIndex)).1).confidence ≤ 1 := by
      unfold analyzeWithContext
      cases (matchPatterns oracle st.patternStats
          (jsSubstring fullText s0.startIndex s0.endIndex)).1 with
      | nil => exact ⟨le_refl 0, by norm_num⟩
      | cons m1 rest => exact calculateContextualConfidence_bounds m1 _ _ 0
    constructor
    · exact (jsRound_bounds (by nlinarith [hca.1]) (by nlinarith [hca.1, hca.2])).1
    · exact (jsRound_bounds (by nlinarith [hca.1]) (by nlinarith [hca.1, hca.2])).2

/-! ### `PomlComponent`, XML escaping (claim C8) -/

/-- `PomlComponent` (templateEngine.ts): tag, attributes and either text
content or child components.  The source's `content: string | Component[]`
union becomes two constructors; the optional attribute `Record` becomes an
insertion-ordered key/value list (`{}`/`undefined` both print as no
attributes and validate identically). -/
inductive PomlComponent where
  | textC (tag : String) (attributes : List (String × String)) (content : String)
  | nodeC (tag : String) (attributes : List (String × String)) (children : List PomlComponent)

/-- One pass of `.replace(<single char regex>/g, rep)`. -/
def replaceCharAll (c : Char) (rep : List Char) : List Char → List Char
  | [] => []
  | d :: ds => if d = c then rep ++ replaceCharAll c rep ds else d :: replaceCharAll c rep ds

/-- `escapeXml` (src/utils/helpers.ts): five sequential global replaces,
`&` first, then `<`, `>`, `"`, `'`. -/
def escapeXmlList (l : List Char) : List Char :=
  replaceCharAll apos "&apos;".data
    (replaceCharAll '"' "&quot;".data
      (replaceCharAll '>' "&gt;".data
        (replaceCharAll '<' "&lt;".data
          (replaceCharAll '&' "&amp;".data l))))

def escapeXml (s : String) : String := ⟨escapeXmlList s.data⟩

/-- The per-character action of `escapeXml`: since `&` is escaped first and
the later passes introduce no further matches of their own targets, the
five passes act independently on each character. -/
def escChar (c : Char) : List Char :=
  if c = '&' then "&amp;".data
  else if c = '<' then "&lt;".data
  else if c = '>' then "&gt;".data
  else if c = '"' then "&quot;".data
  else if c = apos then "&apos;".data
  else [c]

lemma replaceCharAll_cons (c : Char) (rep : List Char) (d : Char) (ds : List Char) :
    replaceCharAll c rep (d :: ds) =
      (if d = c then rep else [d]) ++ replaceCharAll c rep ds := by
  by_cases h : d = c <;> simp [replaceCharAll, h]

lemma replaceCharAll_append (c : Char) (rep : List Char) :
    ∀ (l1 l2 : List Char),
      replaceCharAll c rep (l1 ++ l2) = replaceCharAll c rep l1 ++ replaceCharAll c rep l2 := by
  intro l1
  induction l1 with
  | nil => intro l2; rfl
  | cons d ds ih =>
    intro l2
    rw [List.cons_append, replaceCharAll_cons, replaceCharAll_cons, ih, List.append_assoc]

lemma escapeXmlList_nil : escapeXmlList [] = [] := rfl

lemma escapeXmlList_cons (d : Char) (ds : List Char) :
    escapeXmlList (d :: ds) = escChar d ++ escapeXmlList ds := by
  rcases eq_or_ne d '&' with rfl | h1
  · simp +decide [escapeXmlList, escChar, replaceCharAll_cons, replaceCharAll_append,
      replaceCharAll]
  rcases eq_or_ne d '<' with rfl | h2
  · simp +decide [escapeXmlList, escChar, replaceCharAll_cons, replaceCharAll_append,
      replaceCharAll]
  rcases eq_or_ne d '>' with rfl | h3
  · simp +decide [escapeXmlList, escChar, replaceCharAll_cons, replaceCharAll_append,
      replaceCharAll]
  rcases eq_or_ne d '"' with rfl | h4
  · simp +decide [escapeXmlList, escChar, replaceCharAll_cons, replaceCharAll_append,
      replaceCharAll]
  rcases eq_or_ne d apos with rfl | h5
  · simp +decide [escapeXmlList, escChar, replaceCharAll_cons, replaceCharAll_append,
      replaceCharAll, apos]
  · simp [escapeXmlList, escChar, replaceCharAll_cons, replaceCharAll_append, h1, h2, h3, h4, h5]

set_option maxHeartbeats 1600000

/-- Entity decoding, inverse to `escapeXml` (the `'` entity is written via
its code point 39). -/
def unescapeXmlList : List Char → List Char
  | '&' :: 'a' :: 'm' :: 'p' :: ';' :: rest => '&' :: unescapeXmlList rest
  | '&' :: 'l' :: 't' :: ';' :: rest => '<' :: unescapeXmlList rest
  | '&' :: 'g' :: 't' :: ';' :: rest => '>' :: unescapeXmlList rest
  | '&' :: 'q' :: 'u' :: 'o' :: 't' :: ';' :: rest => '"' :: unescapeXmlList rest
  | '&' :: 'a' :: 'p' :: 'o' :: 's' :: ';' :: rest => Char.ofNat 39 :: unescapeXmlList rest
  | c :: rest => c :: unescapeXmlList rest
  | [] => []

lemma unescape_cons_ne (c : Char) (l : List Char) (h : ¬c = '&') :
    unescapeXmlList (c :: l) = c :: unescapeXmlList l := by
  rw [unescapeXmlList.eq_def]
  split
  · simp_all
  · simp_all
  · simp_all
  · simp_all
  · simp_all
  · rename_i heq
    obtain ⟨rfl, rfl⟩ := List.cons.inj heq
    rfl
  · rename_i heq
    cases heq

lemma unescape_escape (l : List Char) : unescapeXmlList (escapeXmlList l) = l := by
  induction l with
  | nil => rfl
  | cons d ds ih =>
    rw [escapeXmlList_cons]
    unfold escChar
    rcases eq_or_ne d '&' with rfl | h1
    · simp only [if_pos rfl]
      show unescapeXmlList ('&' :: 'a' :: 'm' :: 'p' :: ';' :: escapeXmlList ds) = _
      rw [show ∀ r, unescapeXmlList ('&' :: 'a' :: 'm' :: 'p' :: ';' :: r) =
        '&' :: unescapeXmlList r from fun r => rfl, ih]
    rcases eq_or_ne d '<' with rfl | h2
    · simp only [if_neg h1, if_pos rfl]
      show unescapeXmlList ('&' :: 'l' :: 't' :: ';' :: escapeXmlList ds) = _
      rw [show ∀ r, unescapeXmlList ('&' :: 'l' :: 't' :: ';' :: r) =
        '<' :: unescapeXmlList r from fun r => rfl, ih]
    rcases eq_or_ne d '>' with rfl | h3
    · simp only [if_neg h1, if_neg h2, if_pos rfl]
      show unescapeXmlList ('&' :: 'g' :: 't' :: ';' :: escapeXmlList ds) = _
      rw [show ∀ r, unescapeXmlList ('&' :: 'g' :: 't' :: ';' :: r) =
        '>' :: unescapeXmlList r from fun r => rfl, ih]
    rcases eq_or_ne d '"' with rfl | h4
    · simp only [if_neg h1, if_neg h2, if_neg h3, if_pos rfl]
      show unescapeXmlList ('&' :: 'q' :: 'u' :: 'o' :: 't' :: ';' :: escapeXmlList ds) = _
      rw [show ∀ r, unescapeXmlList ('&' :: 'q' :: 'u' :: 'o' :: 't' :: ';' :: r) =
        '"' :: unescapeXmlList r from fun r => rfl, ih]
    rcases eq_or_ne d apos with rfl | h5
    · simp only [if_neg h1, if_neg h2, if_neg h3, if_neg h4, if_pos rfl]
      show unescapeXmlList ('&' :: 'a' :: 'p' :: 'o' :: 's' :: ';' :: escapeXmlList ds) = _
      rw [show ∀ r, unescapeXmlList ('&' :: 'a' :: 'p' :: 'o' :: 's' :: ';' :: r) =
        Char.ofNat 39 :: unescapeXmlList r from fun r => rfl, ih]
      rfl
    · simp only [if_neg h1, if_neg h2, if_neg h3, if_neg h4, if_neg h5, List.singleton_append]
      rw [unescape_cons_ne d _ h1, ih]

lemma escChar_ne_nil (d : Char) : escChar d ≠ [] := by
  unfold escChar
  split
  · simp
  split
  · simp
  split
  · simp
  split
  · simp
  split
  · simp
  · simp

lemma escChar_no_lt_quot (d : Char) : '<' ∉ escChar d ∧ '"' ∉ escChar d := by
  unfold escChar
  rcases eq_or_ne d '&' with rfl | h1
  · rw [if_pos rfl]; exact ⟨by decide, by decide⟩
  rw [if_neg h1]
  rcases eq_or_ne d '<' with rfl | h2
  · rw [if_pos rfl]; exact ⟨by decide, by decide⟩
  rw [if_neg h2]
  rcases eq_or_ne d '>' with rfl | h3
  · rw [if_pos rfl]; exact ⟨by decide, by decide⟩
  rw [if_neg h3]
  rcases eq_or_ne d '"' with rfl | h4
  · rw [if_pos rfl]; exact ⟨by decide, by decide⟩
  rw [if_neg h4]
  rcases eq_or_ne d apos with rfl | h5
  · rw [if_pos rfl]; exact ⟨by decide, by decide⟩
  · rw [if_neg h5]
    constructor
    · intro hc
      exact h2 (List.mem_singleton.mp hc).symm
    · intro hc
      exact h4 (List.mem_singleton.mp hc).symm

lemma escapeXmlList_no_lt_quot (l : List Char) :
    '<' ∉ escapeXmlList l ∧ '"' ∉ escapeXmlList l := by
  induction l with
  | nil => simp [escapeXmlList_nil]
  | cons d ds ih =>
    rw [escapeXmlList_cons]
    constructor
    · intro hc
      rcases List.mem_append.mp hc with hc | hc
      · exact (escChar_no_lt_quot d).1 hc
      · exact ih.1 hc
    · intro hc
      rcases List.mem_append.mp hc with hc | hc
      · exact (escChar_no_lt_quot d).2 hc
      · exact ih.2 hc

lemma escapeXmlList_ne_nil {l : List Char} (h : l ≠ []) : escapeXmlList l ≠ [] := by
  cases l with
  | nil => exact absurd rfl h
  | cons d ds =>
    rw [escapeXmlList_cons]
    intro hcon
    exact escChar_ne_nil d (List.append_eq_nil.mp hcon).1

/-! ### POML formatter (src/src/generator/pomlFormatter.ts) -/

/-- `FormattingOptions` with the formatter's `defaultOptions` as defaults. -/
structure FormattingOptions where
  indent : String := "  "
  includeXmlDeclaration : Bool := false
  sortAttributes : Bool := false
  preserveWhitespace : Bool := true

/-- `String.prototype.repeat`. -/
def strRepeat (s : String) : ℕ → String
  | 0 => ""
  | n + 1 => s ++ strRepeat s n

/-- `String.prototype.split (<a newline>)` on character lists. -/
def splitOnNewlineList : List Char → List (List Char)
  | [] => [[]]
  | c :: rest =>
    if c = Char.ofNat 10 then [] :: splitOnNewlineList rest
    else
      match splitOnNewlineList rest with
      | [] => [[c]]
      | l :: ls => (c :: l) :: ls

def splitOnNewline (s : String) : List String :=
  (splitOnNewlineList s.data).map (fun l => String.mk l)

/-- `Array.prototype.join(sep)`. -/
def joinSep (sep : String) : List String → String
  | [] => ""
  | [s] => s
  | s :: rest => s ++ sep ++ joinSep sep rest

/-- Stable insertion step of the `sortAttributes` sort
(`localeCompare` modelled as code-point order). -/
def insertAttrByKey (a : String × String) : List (String × String) → List (String × String)
  | [] => [a]
  | b :: bs => if a.1 < b.1 then a :: b :: bs else b :: insertAttrByKey a bs

def sortAttrsByKey (attrs : List (String × String)) : List (String × String) :=
  attrs.foldl (fun acc a => insertAttrByKey a acc) []

/-- `PomlFormatter.buildOpeningTag`: tag alone if no attributes, else tag,
a space and space-joined `key="escapedValue"` entries. -/
def buildOpeningTag (tag : String) (attributes : List (String × String))
    (options : FormattingOptions) : String :=
  if attributes.isEmpty then tag
  else
    let attributeEntries :=
      if options.sortAttributes then sortAttrsByKey attributes else attributes
    let attributeStrings := attributeEntries.map
      (fun kv => kv.1 ++ "=" ++ "\"" ++ escapeXml kv.2 ++ "\"")
    tag ++ " " ++ joinSep " " attributeStrings

/-- `PomlFormatter.isSimpleContent`: short, no `<`/`>`/`&`, already trimmed. -/
def isSimpleContent (content : String) : Bool :=
  decide (content.length < 80) &&
  !(jsIncludes content "<") &&
  !(jsIncludes content ">") &&
  !(jsIncludes content "&") &&
  (jsTrim content == content)

mutual

/-- `PomlFormatter.formatComponent`: the lines this call pushes onto `lines`. -/
def formatComponentLines (c : PomlComponent) (depth : ℕ)
    (options : FormattingOptions) : List String :=
  match c with
  | .nodeC tag attrs children =>
    let indent := strRepeat options.indent depth
    let openingTag := buildOpeningTag tag attrs options
    (indent ++ "<" ++ openingTag ++ ">") ::
      formatChildrenLines children (depth + 1) options ++
      [indent ++ "</" ++ tag ++ ">"]
  | .textC tag attrs content =>
    let indent := strRepeat options.indent depth
    let openingTag := buildOpeningTag tag attrs options
    let escapedContent := escapeXml content
    if isSimpleContent content && !(jsIncludes content "\n") then
      [indent ++ "<" ++ openingTag ++ ">" ++ escapedContent ++ "</" ++ tag ++ ">"]
    else
      (indent ++ "<" ++ openingTag ++ ">") ::
        (if options.preserveWhitespace && jsIncludes content "\n" then
          (splitOnNewline escapedContent).map
            (fun line => strRepeat options.indent (depth + 1) ++ line)
        else
          [strRepeat options.indent (depth + 1) ++ escapedContent]) ++
        [indent ++ "</" ++ tag ++ ">"]

def formatChildrenLines : List PomlComponent → ℕ → FormattingOptions → List String
  | [], _, _ => []
  | c :: cs, depth, options =>
    formatComponentLines c depth options ++ formatChildrenLines cs depth options

end

/-- `PomlFormatter.format`: optional XML declaration, then every component's
lines, joined with newlines. -/
def pomlFormat (components : List PomlComponent) (options : FormattingOptions) : String :=
  let lines :=
    (if options.includeXmlDeclaration
      then ["<?xml version=" ++ "\"1.0\"" ++ " encoding=" ++ "\"UTF-8\"" ++ "?>"]
      else []) ++
    formatChildrenLines components 0 options
  joinSep "\n" lines

mutual

/-- `PomlFormatter.formatComponentMinified` (uses the default options). -/
def formatComponentMinified : PomlComponent → String
  | .nodeC tag attrs children =>
    "<" ++ buildOpeningTag tag attrs {} ++ ">" ++
      formatChildrenMinified children ++ "</" ++ tag ++ ">"
  | .textC tag attrs content =>
    "<" ++ buildOpeningTag tag attrs {} ++ ">" ++
      escapeXml content ++ "</" ++ tag ++ ">"

def formatChildrenMinified : List PomlComponent → String
  | [] => ""
  | c :: cs => formatComponentMinified c ++ formatChildrenMinified cs

end

/-- `PomlFormatter.formatMinified`: concatenation of minified components. -/
def pomlFormatMinified (components : List PomlComponent) : String :=
  formatChildrenMinified components

/-- First character class of `/^[a-zA-Z_][a-zA-Z0-9._-]*$/`. -/
def isValidNameStart (c : Char) : Bool :=
  (decide (Char.ofNat 97 ≤ c) && decide (c ≤ Char.ofNat 122)) ||
  (decide (Char.ofNat 65 ≤ c) && decide (c ≤ Char.ofNat 90)) ||
  c = Char.ofNat 95

/-- Continuation character class of the tag-name regex. -/
def isValidNameChar (c : Char) : Bool :=
  isValidNameStart c ||
  (decide (Char.ofNat 48 ≤ c) && decide (c ≤ Char.ofNat 57)) ||
  c = Char.ofNat 46 || c = Char.ofNat 45

/-- `PomlFormatter.isValidTagName` (also used for attribute names). -/
def isValidTagName (name : String) : Bool :=
  match name.data with
  | [] => false
  | c :: rest => isValidNameStart c && rest.all isValidNameChar

/-- The attribute-name part of `validateComponent` (in the typed embedding
every attribute value is a string, so the `typeof` check never fires). -/
def attrErrors (attrs : List (String × String)) : List String :=
  attrs.flatMap (fun kv =>
    if isValidTagName kv.1 then []
    else ["Invalid attribute name: " ++ aposS ++ kv.1 ++ aposS])

mutual

/-- `PomlFormatter.validateComponent`: bad tag name, bad attribute names,
then recursively the children's errors with a `Child i:` preamble. -/
def validateComponent : PomlComponent → List String
  | .textC tag attrs _ =>
    (if isValidTagName tag then []
      else ["Invalid tag name: " ++ aposS ++ tag ++ aposS]) ++
    attrErrors attrs
  | .nodeC tag attrs children =>
    (if isValidTagName tag then []
      else ["Invalid tag name: " ++ aposS ++ tag ++ aposS]) ++
    attrErrors attrs ++ childErrorsFrom children 0

def childErrorsFrom : List PomlComponent → ℕ → List String
  | [], _ => []
  | c :: cs, i =>
    (validateComponent c).map (fun e => "Child " ++ toString i ++ ": " ++ e) ++
    childErrorsFrom cs (i + 1)

end

mutual

/-- No internal node with an empty child list (such a node prints as
`<tag></tag>`, indistinguishable from an empty leaf). -/
def noEmptyNodes : PomlComponent → Bool
  | .textC _ _ _ => true
  | .nodeC _ _ children => !children.isEmpty && noEmptyNodesList children

def noEmptyNodesList : List PomlComponent → Bool
  | [] => true
  | c :: cs => noEmptyNodes c && noEmptyNodesList cs

end

/-! ### Tag-markup parser.  Modelled from the spec: the output grammar of
section 6 is `<tag attr="escaped-value" ...>content-or-children</tag>`,
nesting arbitrary depth, attributes optional, escaping applying to the five
XML special characters; section 8 asks that parsing the tag structure back
recovers tag names, attribute sets and leaf text.  This fuel-based
recursive-descent parser is the spec-side reading of that grammar, to be
compared with the formatter's output. -/

/-- Characters that may continue a tag name while scanning. -/
def tagScanChar (c : Char) : Bool := !(c == ' ') && !(c == '>')

/-- Parse ` key="value"` attribute groups up to and including the `>` that
closes the opening tag; entity references in values are decoded. -/
def parseAttrs : ℕ → List Char → Option (List (String × String) × List Char)
  | 0, _ => none
  | fuel + 1, input =>
    match input with
    | [] => none
    | c :: rest =>
      if c = '>' then some ([], rest)
      else if c = ' ' then
        let key := rest.takeWhile (fun d => !(d == '='))
        match rest.drop key.length with
        | [] => none
        | e :: rest1 =>
          if e = '=' then
            match rest1 with
            | [] => none
            | q :: rest2 =>
              if q = '"' then
                let value := rest2.takeWhile (fun d => !(d == '"'))
                match rest2.drop value.length with
                | [] => none
                | q2 :: rest3 =>
                  if q2 = '"' then
                    match parseAttrs fuel rest3 with
                    | none => none
                    | some (attrs, r) =>
                      some ((String.mk key, String.mk (unescapeXmlList value)) :: attrs, r)
                  else none
              else none
          else none
      else none

/-- Does the input start with a closing-tag opener `</`? -/
def startsClose (l : List Char) : Bool := (['<', '/']).isPrefixOf l

/-- Expect `</tag>` and return the remaining input. -/
def expectClosing (tag : List Char) (input : List Char) : Option (List Char) :=
  if ('<' :: '/' :: (tag ++ ['>'])).isPrefixOf input
  then some (input.drop ('<' :: '/' :: (tag ++ ['>'])).length)
  else none

mutual

/-- Parse one element `<tag attrs>body</tag>`: a body that opens another
element is parsed as children, anything else (including an immediately
closing body) as leaf text with entities decoded. -/
def parseElement : ℕ → List Char → Option (PomlComponent × List Char)
  | 0, _ => none
  | fuel + 1, input =>
    match input with
    | [] => none
    | c :: rest =>
      if c = '<' then
        let tag := rest.takeWhile tagScanChar
        if tag.isEmpty then none
        else
          match parseAttrs (fuel + 1) (rest.drop tag.length) with
          | none => none
          | some (attrs, body) =>
            if startsClose body then
              match expectClosing tag body with
              | none => none
              | some r => some (.textC (String.mk tag) attrs "", r)
            else
              match body with
              | [] => none
              | b :: _ =>
                if b = '<' then
                  match parseChildren fuel body with
                  | none => none
                  | some (children, rest2) =>
                    match expectClosing tag rest2 with
                    | none => none
                    | some r => some (.nodeC (String.mk tag) attrs children, r)
                else
                  let txt := body.takeWhile (fun d => !(d == '<'))
                  match expectClosing tag (body.drop txt.length) with
                  | none => none
                  | some r =>
                    some (.textC (String.mk tag) attrs (String.mk (unescapeXmlList txt)), r)
      else none

/-- Parse a sequence of sibling elements, stopping at a `</`. -/
def parseChildren : ℕ → List Char → Option (List PomlComponent × List Char)
  | 0, _ => none
  | fuel + 1, input =>
    if startsClose input then some ([], input)
    else
      match parseElement fuel input with
      | none => none
      | some (c, rest) =>
        match parseChildren fuel rest with
        | none => none
        | some (cs, rest2) => some (c :: cs, rest2)

end

/-- Parse a sequence of top-level elements consuming the whole input. -/
def parseTop : ℕ → List Char → Option (List PomlComponent)
  | 0, _ => none
  | fuel + 1, input =>
    match input with
    | [] => some []
    | d :: ds =>
      match parseElement fuel (d :: ds) with
      | none => none
      | some (c, rest) =>
        match parseTop fuel rest with
        | none => none
        | some cs => some (c :: cs)

/-- Parse a whole markup string as a component list. -/
def parsePoml (s : String) : Option (List PomlComponent) :=
  parseTop (s.data.length + 1) s.data

/-- Characters of a minified component rendering. -/
def rElem (c : PomlComponent) : List Char := (formatComponentMinified c).data

/-- Characters of a minified component-list rendering. -/
def rList (cs : List PomlComponent) : List Char := (formatChildrenMinified cs).data

/-- Character-level shape of the rendered attribute part of an opening tag. -/
def attrsRender : List (String × String) → List Char
  | [] => []
  | kv :: rest =>
    ' ' :: (kv.1.data ++ ('=' :: '"' ::
      (escapeXmlList kv.2.data ++ ('"' :: attrsRender rest))))

lemma attrsRender_join (kv : String × String) (rest : List (String × String)) :
    ' ' :: (joinSep " " ((kv :: rest).map
      (fun p => p.1 ++ "=" ++ "\"" ++ escapeXml p.2 ++ "\""))).data
      = attrsRender (kv :: rest) := by
  induction rest generalizing kv with
  | nil =>
    show ' ' :: (kv.1 ++ "=" ++ "\"" ++ escapeXml kv.2 ++ "\"").data = _
    have h1 : ("=").data = ['='] := rfl
    have h2 : ("\"").data = ['"'] := rfl
    simp [String.data_append, h1, h2, attrsRender, escapeXml]
  | cons kv2 rest2 ih =>
    show ' ' :: ((kv.1 ++ "=" ++ "\"" ++ escapeXml kv.2 ++ "\"") ++ " " ++
      joinSep " " ((kv2 :: rest2).map
        (fun p => p.1 ++ "=" ++ "\"" ++ escapeXml p.2 ++ "\""))).data = _
    have h1 : ("=").data = ['='] := rfl
    have h2 : ("\"").data = ['"'] := rfl
    have h3 : (" ").data = [' '] := rfl
    rw [show attrsRender (kv :: kv2 :: rest2) =
      ' ' :: (kv.1.data ++ ('=' :: '"' :: (escapeXmlList kv.2.data ++
        ('"' :: attrsRender (kv2 :: rest2))))) from rfl, ← ih kv2]
    simp [String.data_append, h1, h2, h3, escapeXml]

lemma buildOpeningTag_data (tag : String) (attrs : List (String × String)) :
    (buildOpeningTag tag attrs {}).data = tag.data ++ attrsRender attrs := by
  cases attrs with
  | nil => simp [buildOpeningTag, attrsRender]
  | cons kv rest =>
    have hbo : buildOpeningTag tag (kv :: rest) {} =
        tag ++ " " ++ joinSep " " ((kv :: rest).map
          (fun p => p.1 ++ "=" ++ "\"" ++ escapeXml p.2 ++ "\"")) := rfl
    have h3 : (" ").data = [' '] := rfl
    rw [hbo, ← attrsRender_join kv rest]
    simp [String.data_append, h3]

lemma rElem_textC (tag : String) (attrs : List (String × String)) (content : String) :
    rElem (.textC tag attrs content) =
      '<' :: (tag.data ++ (attrsRender attrs ++ ('>' :: (escapeXmlList content.data ++
        ('<' :: '/' :: (tag.data ++ ['>'])))))) := by
  have h1 : ("<").data = ['<'] := rfl
  have h2 : (">").data = ['>'] := rfl
  have h3 : ("</").data = ['<', '/'] := rfl
  show ("<" ++ buildOpeningTag tag attrs {} ++ ">" ++ escapeXml content ++
    "</" ++ tag ++ ">").data = _
  simp [String.data_append, h1, h2, h3, buildOpeningTag_data, escapeXml]

lemma rElem_nodeC (tag : String) (attrs : List (String × String))
    (children : List PomlComponent) :
    rElem (.nodeC tag attrs children) =
      '<' :: (tag.data ++ (attrsRender attrs ++ ('>' :: (rList children ++
        ('<' :: '/' :: (tag.data ++ ['>'])))))) := by
  have h1 : ("<").data = ['<'] := rfl
  have h2 : (">").data = ['>'] := rfl
  have h3 : ("</").data = ['<', '/'] := rfl
  show ("<" ++ buildOpeningTag tag attrs {} ++ ">" ++ formatChildrenMinified children ++
    "</" ++ tag ++ ">").data = _
  simp [String.data_append, h1, h2, h3, buildOpeningTag_data, rList]

lemma rList_nil : rList [] = [] := rfl

lemma rList_cons (c : PomlComponent) (cs : List PomlComponent) :
    rList (c :: cs) = rElem c ++ rList cs := by
  show (formatComponentMinified c ++ formatChildrenMinified cs).data = _
  simp [String.data_append, rElem, rList]

lemma nameStart_nameChar {c : Char} (h : isValidNameStart c = true) :
    isValidNameChar c = true := by
  simp [isValidNameChar, h]

lemma nameStart_ne_slash {c : Char} (h : isValidNameStart c = true) : c ≠ '/' := by
  rintro rfl; exact absurd h (by decide)

lemma nameChar_facts {c : Char} (h : isValidNameChar c = true) :
    tagScanChar c = true ∧ c ≠ '=' ∧ c ≠ '"' ∧ c ≠ '<' := by
  have hsp : c ≠ ' ' := by rintro rfl; exact absurd h (by decide)
  have hgt : c ≠ '>' := by rintro rfl; exact absurd h (by decide)
  refine ⟨by simp [tagScanChar, hsp, hgt], ?_, ?_, ?_⟩
  · rintro rfl; exact absurd h (by decide)
  · rintro rfl; exact absurd h (by decide)
  · rintro rfl; exact absurd h (by decide)

lemma isValidTagName_data {t : String} (h : isValidTagName t = true) :
    ∃ c cs, t.data = c :: cs ∧ isValidNameStart c = true ∧
      ∀ d ∈ t.data, isValidNameChar d = true := by
  unfold isValidTagName at h
  rcases hd : t.data with _ | ⟨c, cs⟩
  · rw [hd] at h; cases h
  · rw [hd] at h
    simp only [Bool.and_eq_true, List.all_eq_true] at h
    refine ⟨c, cs, rfl, h.1, ?_⟩
    intro d hdm
    rcases List.mem_cons.mp hdm with rfl | hdm
    · exact nameStart_nameChar h.1
    · exact h.2 d hdm

lemma attrErrors_eq_nil {attrs : List (String × String)} (h : attrErrors attrs = []) :
    ∀ kv ∈ attrs, isValidTagName kv.1 = true := by
  induction attrs with
  | nil => intro kv hkv; cases hkv
  | cons a rest ih =>
    rw [show attrErrors (a :: rest) =
      (if isValidTagName a.1 then []
        else ["Invalid attribute name: " ++ aposS ++ a.1 ++ aposS]) ++
      attrErrors rest from by simp [attrErrors]] at h
    rcases List.append_eq_nil.mp h with ⟨h1, h2⟩
    intro kv hkv
    rcases List.mem_cons.mp hkv with rfl | hkv
    · by_cases hv : isValidTagName kv.1 = true
      · exact hv
      · rw [if_neg hv] at h1; cases h1
    · exact ih h2 kv hkv

lemma childErrorsFrom_eq_nil {cs : List PomlComponent} :
    ∀ i, childErrorsFrom cs i = [] → ∀ c ∈ cs, validateComponent c = [] := by
  induction cs with
  | nil => intro i h c hc; cases hc
  | cons c0 rest ih =>
    intro i h c hc
    rw [childErrorsFrom] at h
    rcases List.append_eq_nil.mp h with ⟨h1, h2⟩
    rcases List.mem_cons.mp hc with rfl | hc
    · exact List.map_eq_nil_iff.mp h1
    · exact ih (i + 1) h2 c hc

lemma validate_textC {tag : String} {attrs : List (String × String)} {content : String}
    (h : validateComponent (.textC tag attrs content) = []) :
    isValidTagName tag = true ∧ ∀ kv ∈ attrs, isValidTagName kv.1 = true := by
  rw [validateComponent] at h
  rcases List.append_eq_nil.mp h with ⟨h1, h2⟩
  refine ⟨?_, attrErrors_eq_nil h2⟩
  by_cases hv : isValidTagName tag = true
  · exact hv
  · rw [if_neg hv] at h1; cases h1

lemma validate_nodeC {tag : String} {attrs : List (String × String)}
    {children : List PomlComponent}
    (h : validateComponent (.nodeC tag attrs children) = []) :
    isValidTagName tag = true ∧ (∀ kv ∈ attrs, isValidTagName kv.1 = true) ∧
      ∀ c ∈ children, validateComponent c = [] := by
  rw [validateComponent] at h
  rw [List.append_assoc] at h
  rcases List.append_eq_nil.mp h with ⟨h1, h23⟩
  rcases List.append_eq_nil.mp h23 with ⟨h2, h3⟩
  refine ⟨?_, attrErrors_eq_nil h2, childErrorsFrom_eq_nil 0 h3⟩
  by_cases hv : isValidTagName tag = true
  · exact hv
  · rw [if_neg hv] at h1; cases h1

lemma noEmptyNodesList_mem {cs : List PomlComponent} (h : noEmptyNodesList cs = true) :
    ∀ c ∈ cs, noEmptyNodes c = true := by
  induction cs with
  | nil => intro c hc; cases hc
  | cons c0 rest ih =>
    intro c hc
    rw [noEmptyNodesList] at h
    simp only [Bool.and_eq_true] at h
    rcases h with ⟨h1, h2⟩
    rcases List.mem_cons.mp hc with rfl | hc
    · exact h1
    · exact ih h2 c hc

lemma noEmptyNodes_nodeC {tag : String} {attrs : List (String × String)}
    {children : List PomlComponent}
    (h : noEmptyNodes (.nodeC tag attrs children) = true) :
    children ≠ [] ∧ ∀ c ∈ children, noEmptyNodes c = true := by
  rw [noEmptyNodes] at h
  simp only [Bool.and_eq_true, Bool.not_eq_true'] at h
  rcases h with ⟨h1, h2⟩
  refine ⟨?_, noEmptyNodesList_mem h2⟩
  intro hcon
  rw [hcon] at h1
  cases h1

lemma takeWhile_append_all (p : Char → Bool) (l₁ l₂ : List Char)
    (h : ∀ c ∈ l₁, p c = true) :
    (l₁ ++ l₂).takeWhile p = l₁ ++ l₂.takeWhile p := by
  induction l₁ with
  | nil => simp
  | cons c cs ih =>
    simp only [List.cons_append, List.takeWhile_cons,
      h c (List.mem_cons_self c cs), if_true]
    rw [ih (fun d hd => h d (List.mem_cons_of_mem c hd))]

lemma takeWhile_cons_neg (p : Char → Bool) (c : Char) (l : List Char)
    (h : p c = false) : (c :: l).takeWhile p = [] := by
  simp [List.takeWhile_cons, h]

lemma takeWhile_exact (p : Char → Bool) (l₁ : List Char) (c : Char) (l₂ : List Char)
    (hall : ∀ d ∈ l₁, p d = true) (hc : p c = false) :
    (l₁ ++ c :: l₂).takeWhile p = l₁ := by
  rw [takeWhile_append_all p l₁ (c :: l₂) hall, takeWhile_cons_neg p c l₂ hc,
    List.append_nil]

lemma startsClose_close (r : List Char) : startsClose ('<' :: '/' :: r) = true := by
  simp [startsClose, List.isPrefixOf]

lemma startsClose_ne {c : Char} (l : List Char) (h : c ≠ '<') :
    startsClose (c :: l) = false := by
  simp [startsClose, List.isPrefixOf, Ne.symm h]

lemma startsClose_second {c2 : Char} (l : List Char) (h : c2 ≠ '/') :
    startsClose ('<' :: c2 :: l) = false := by
  simp [startsClose, List.isPrefixOf, Ne.symm h]

lemma expectClosing_append (tag r : List Char) :
    expectClosing tag (('<' :: '/' :: (tag ++ ['>'])) ++ r) = some r := by
  unfold expectClosing
  rw [if_pos]
  · rw [List.drop_left]
  · rw [List.isPrefixOf_iff_prefix]
    exact List.prefix_append _ _

lemma parseAttrs_render (attrs : List (String × String)) (z : List Char) :
    ∀ fuel : ℕ, (∀ kv ∈ attrs, isValidTagName kv.1 = true) →
    attrs.length + 1 ≤ fuel →
    parseAttrs fuel (attrsRender attrs ++ '>' :: z) = some (attrs, z) := by
  induction attrs with
  | nil =>
    intro fuel _ hf
    obtain ⟨f, rfl⟩ : ∃ f, fuel = f + 1 := ⟨fuel - 1, by omega⟩
    show parseAttrs (f + 1) ('>' :: z) = some ([], z)
    rw [parseAttrs]
    rw [if_pos rfl]
  | cons kv rest ih =>
    intro fuel hval hf
    obtain ⟨f, rfl⟩ : ∃ f, fuel = f + 1 := ⟨fuel - 1, by omega⟩
    have hkey := isValidTagName_data (hval kv (List.mem_cons_self kv rest))
    obtain ⟨k0, ks, hkd, _, hkall⟩ := hkey
    have hallkey : ∀ d ∈ kv.1.data, (fun d => !(d == '=')) d = true := by
      intro d hd
      have := (nameChar_facts (hkall d hd)).2.1
      simp [this]
    have hq : '"' ∉ escapeXmlList kv.2.data := (escapeXmlList_no_lt_quot kv.2.data).2
    have hallval : ∀ d ∈ escapeXmlList kv.2.data, (fun d => !(d == '"')) d = true := by
      intro d hd
      have hne : d ≠ '"' := fun hcon => hq (hcon ▸ hd)
      simp [hne]
    show parseAttrs (f + 1)
      ((' ' :: (kv.1.data ++ ('=' :: '"' :: (escapeXmlList kv.2.data ++
        ('"' :: attrsRender rest))))) ++ '>' :: z) = _
    rw [List.cons_append, parseAttrs]
    rw [if_neg (by decide), if_pos rfl]
    have harr : kv.1.data ++ ('=' :: '"' :: (escapeXmlList kv.2.data ++
        ('"' :: attrsRender rest))) ++ '>' :: z
        = kv.1.data ++ '=' :: ('"' :: (escapeXmlList kv.2.data ++
          ('"' :: (attrsRender rest ++ '>' :: z)))) := by
      simp [List.append_assoc]
    rw [harr]
    rw [takeWhile_exact _ _ _ _ hallkey (by decide)]
    simp only [List.drop_left]
    rw [if_pos trivial, if_pos trivial]
    rw [takeWhile_exact _ _ _ _ hallval (by decide)]
    simp only [List.drop_left]
    rw [if_pos trivial]
    rw [ih f (fun kv2 h2 => hval kv2 (List.mem_cons_of_mem kv h2)) (by simp at hf; omega)]
    rw [unescape_escape]

lemma attrsRender_length_ge (attrs : List (String × String)) :
    attrs.length ≤ (attrsRender attrs).length := by
  induction attrs with
  | nil => simp [attrsRender]
  | cons kv rest ih =>
    simp only [attrsRender, List.length_cons, List.length_append]
    omega

lemma rElem_shape {c : PomlComponent} (h : validateComponent c = []) :
    ∃ t Z, rElem c = '<' :: t :: Z ∧ isValidNameStart t = true := by
  cases c with
  | textC tag attrs content =>
    obtain ⟨hv, _⟩ := validate_textC h
    obtain ⟨t, ts, hd, hstart, _⟩ := isValidTagName_data hv
    refine ⟨t, ts ++ (attrsRender attrs ++ ('>' :: (escapeXmlList content.data ++
      ('<' :: '/' :: ((t :: ts) ++ ['>']))))), ?_, hstart⟩
    rw [rElem_textC, hd]
    rfl
  | nodeC tag attrs children =>
    obtain ⟨hv, _, _⟩ := validate_nodeC h
    obtain ⟨t, ts, hd, hstart, _⟩ := isValidTagName_data hv
    refine ⟨t, ts ++ (attrsRender attrs ++ ('>' :: (rList children ++
      ('<' :: '/' :: ((t :: ts) ++ ['>']))))), ?_, hstart⟩
    rw [rElem_nodeC, hd]
    rfl

lemma rElem_length_pos (c : PomlComponent) : 0 < (rElem c).length := by
  cases c with
  | textC tag attrs content => rw [rElem_textC]; simp
  | nodeC tag attrs children => rw [rElem_nodeC]; simp

lemma takeWhile_tag (tag : List Char) (attrs : List (String × String)) (z : List Char)
    (hall : ∀ d ∈ tag, tagScanChar d = true) :
    (tag ++ (attrsRender attrs ++ '>' :: z)).takeWhile tagScanChar = tag := by
  cases attrs with
  | nil =>
    simp only [attrsRender, List.nil_append]
    exact takeWhile_exact _ _ _ _ hall (by decide)
  | cons kv rest =>
    simp only [attrsRender, List.cons_append]
    exact takeWhile_exact _ _ ' ' _ hall (by decide)

lemma parse_render_main : ∀ fuel : ℕ,
    (∀ c rest, validateComponent c = [] → noEmptyNodes c = true →
      (rElem c).length ≤ fuel →
      parseElement fuel (rElem c ++ rest) = some (c, rest)) ∧
    (∀ cs r, (∀ c ∈ cs, validateComponent c = [] ∧ noEmptyNodes c = true) →
      (rList cs).length + 1 ≤ fuel →
      parseChildren fuel (rList cs ++ '<' :: '/' :: r) = some (cs, '<' :: '/' :: r)) := by
  intro fuel
  induction fuel with
  | zero =>
    constructor
    · intro c rest _ _ hlen
      have := rElem_length_pos c
      omega
    · intro cs r _ hlen
      omega
  | succ fuel ih =>
    constructor
    · intro c rest hval hne hlen
      cases c with
      | textC tag attrs content =>
        obtain ⟨hv, hattr⟩ := validate_textC hval
        obtain ⟨t, ts, hd, hstart, hall⟩ := isValidTagName_data hv
        have htagscan : ∀ d ∈ tag.data, tagScanChar d = true :=
          fun d hdm => (nameChar_facts (hall d hdm)).1
        have hA : attrs.length + 1 ≤ fuel + 1 := by
          have h1 := attrsRender_length_ge attrs
          rw [rElem_textC] at hlen
          simp [List.length_append] at hlen
          omega
        have harr : rElem (.textC tag attrs content) ++ rest
            = '<' :: (tag.data ++ (attrsRender attrs ++ ('>' ::
              (escapeXmlList content.data ++
                ('<' :: '/' :: (tag.data ++ ('>' :: rest))))))) := by
          rw [rElem_textC]
          simp [List.append_assoc]
        rw [harr, parseElement, if_pos rfl]
        rw [takeWhile_tag _ _ _ htagscan]
        rw [hd]
        simp only [List.isEmpty_cons, Bool.false_eq_true, if_false, List.drop_left]
        rw [parseAttrs_render attrs _ (fuel + 1) hattr hA]
        dsimp only
        rcases hcd : content.data with _ | ⟨e0, es⟩
        · rw [escapeXmlList_nil, List.nil_append]
          rw [if_pos (startsClose_close _)]
          rw [show ('<' :: '/' :: ((t :: ts) ++ ('>' :: rest)))
            = ('<' :: '/' :: ((t :: ts) ++ ['>'])) ++ rest from by
              simp [List.append_assoc]]
          rw [expectClosing_append]
          have hc0 : content = "" := by
            cases content with
            | mk d =>
              simp only [String.data] at hcd
              rw [hcd]
          rw [hc0, ← hd]
        · obtain ⟨b, bs, hb⟩ : ∃ b bs,
              escapeXmlList (e0 :: es) = b :: bs := by
            rcases hesc : escapeXmlList (e0 :: es) with _ | ⟨b, bs⟩
            · exact absurd hesc (escapeXmlList_ne_nil (by simp))
            · exact ⟨b, bs, rfl⟩
          have hbne : b ≠ '<' := by
            intro hcon
            apply (escapeXmlList_no_lt_quot (e0 :: es)).1
            rw [hb, hcon]
            exact List.mem_cons_self _ _
          have hballne : ∀ d ∈ b :: bs, (fun d => !(d == '<')) d = true := by
            intro d hdm
            have : d ≠ '<' := by
              intro hcon
              apply (escapeXmlList_no_lt_quot (e0 :: es)).1
              rw [hb, ← hcon]
              exact hdm
            simp [this]
          rw [hb, List.cons_append]
          rw [startsClose_ne _ (by
            intro hcon
            exact hbne hcon), if_neg (by decide)]
          dsimp only
          rw [if_neg hbne]
          rw [show b :: (bs ++ ('<' :: '/' :: ((t :: ts) ++ ('>' :: rest))))
            = (b :: bs) ++ '<' :: ('/' :: ((t :: ts) ++ ('>' :: rest))) from by
              simp [List.append_assoc]]
          rw [takeWhile_exact _ _ _ _ hballne (by decide)]
          simp only [List.drop_left]
          rw [show ('<' :: '/' :: ((t :: ts) ++ ('>' :: rest)))
            = ('<' :: '/' :: ((t :: ts) ++ ['>'])) ++ rest from by
              simp [List.append_assoc]]
          rw [expectClosing_append]
          rw [← hb, ← hcd, unescape_escape, ← hd]
      | nodeC tag attrs children =>
        obtain ⟨hv, hattr, hchildval⟩ := validate_nodeC hval
        obtain ⟨hchne, hchildne⟩ := noEmptyNodes_nodeC hne
        obtain ⟨t, ts, hd, hstart, hall⟩ := isValidTagName_data hv
        have htagscan : ∀ d ∈ tag.data, tagScanChar d = true :=
          fun d hdm => (nameChar_facts (hall d hdm)).1
        have hA : attrs.length + 1 ≤ fuel + 1 := by
          have h1 := attrsRender_length_ge attrs
          rw [rElem_nodeC] at hlen
          simp [List.length_append] at hlen
          omega
        have hchbudget : (rList children).length + 1 ≤ fuel := by
          rw [rElem_nodeC] at hlen
          simp [List.length_append] at hlen
          have h2 : 1 ≤ tag.data.length := by rw [hd]; simp
          omega
        have harr : rElem (.nodeC tag attrs children) ++ rest
            = '<' :: (tag.data ++ (attrsRender attrs ++ ('>' ::
              (rList children ++
                ('<' :: '/' :: (tag.data ++ ('>' :: rest))))))) := by
          rw [rElem_nodeC]
          simp [List.append_assoc]
        rw [harr, parseElement, if_pos rfl]
        rw [takeWhile_tag _ _ _ htagscan]
        rw [hd]
        simp only [List.isEmpty_cons, Bool.false_eq_true, if_false, List.drop_left]
        rw [parseAttrs_render attrs _ (fuel + 1) hattr hA]
        dsimp only
        rcases hch : children with _ | ⟨c1, cs2⟩
        · exact absurd hch hchne
        · subst hch
          have hok1 := hchildval c1 (List.mem_cons_self c1 cs2)
          obtain ⟨t1, Z1, hsh, hstart1⟩ := rElem_shape hok1
          have hbody : rList (c1 :: cs2) ++ '<' :: '/' :: ((t :: ts) ++ ('>' :: rest))
              = '<' :: t1 :: (Z1 ++ (rList cs2 ++
                '<' :: '/' :: ((t :: ts) ++ ('>' :: rest)))) := by
            rw [rList_cons, hsh]
            simp [List.append_assoc]
          rw [show rList (c1 :: cs2) ++ ('<' :: '/' :: ((t :: ts) ++ ('>' :: rest)))
            = '<' :: t1 :: (Z1 ++ (rList cs2 ++
              '<' :: '/' :: ((t :: ts) ++ ('>' :: rest)))) from hbody]
          rw [startsClose_second _ (nameStart_ne_slash hstart1), if_neg (by decide)]
          dsimp only
          rw [if_pos rfl]
          rw [← hbody]
          rw [ih.2 (c1 :: cs2) ((t :: ts) ++ ('>' :: rest))
            (fun c hc => ⟨hchildval c hc, hchildne c hc⟩) hchbudget]
          dsimp only
          rw [show ('<' :: '/' :: ((t :: ts) ++ ('>' :: rest)))
            = ('<' :: '/' :: ((t :: ts) ++ ['>'])) ++ rest from by
              simp [List.append_assoc]]
          rw [expectClosing_append]
          rw [← hd]
    · intro cs r hok hlen
      cases cs with
      | nil =>
        rw [rList_nil, List.nil_append, parseChildren]
        rw [if_pos (startsClose_close r)]
      | cons c1 cs2 =>
        obtain ⟨hv1, hn1⟩ := hok c1 (List.mem_cons_self c1 cs2)
        obtain ⟨t1, Z1, hsh, hstart1⟩ := rElem_shape hv1
        have hlen2 : (rElem c1).length + ((rList cs2).length + 1) ≤ fuel + 1 := by
          rw [rList_cons] at hlen
          simp [List.length_append] at hlen
          omega
        have hpos := rElem_length_pos c1
        have hbody : rList (c1 :: cs2) ++ '<' :: '/' :: r
            = '<' :: t1 :: (Z1 ++ (rList cs2 ++ '<' :: '/' :: r)) := by
          rw [rList_cons, hsh]
          simp [List.append_assoc]
        rw [hbody, parseChildren]
        rw [startsClose_second _ (nameStart_ne_slash hstart1), if_neg (by decide)]
        rw [show ('<' :: t1 :: (Z1 ++ (rList cs2 ++ '<' :: '/' :: r)))
          = rElem c1 ++ (rList cs2 ++ '<' :: '/' :: r) from by
            rw [hsh]; simp [List.append_assoc]]
        rw [ih.1 c1 _ hv1 hn1 (by omega)]
        dsimp only
        rw [ih.2 cs2 r (fun c hc => hok c (List.mem_cons_of_mem c1 hc)) (by omega)]

lemma parseTop_render : ∀ (cs : List PomlComponent) (fuel : ℕ),
    (∀ c ∈ cs, validateComponent c = [] ∧ noEmptyNodes c = true) →
    (rList cs).length + 1 ≤ fuel →
    parseTop fuel (rList cs) = some cs := by
  intro cs
  induction cs with
  | nil =>
    intro fuel _ hf
    obtain ⟨f, rfl⟩ : ∃ f, fuel = f + 1 := ⟨fuel - 1, by omega⟩
    rw [rList_nil, parseTop]
  | cons c1 cs2 ih =>
    intro fuel hok hf
    obtain ⟨f, rfl⟩ : ∃ f, fuel = f + 1 := ⟨fuel - 1, by omega⟩
    obtain ⟨hv1, hn1⟩ := hok c1 (List.mem_cons_self c1 cs2)
    obtain ⟨t1, Z1, hsh, hstart1⟩ := rElem_shape hv1
    have hpos := rElem_length_pos c1
    have hlen2 : (rElem c1).length + ((rList cs2).length + 1) ≤ f + 1 := by
      rw [rList_cons] at hf
      simp [List.length_append] at hf
      omega
    have hbody : rList (c1 :: cs2) = '<' :: t1 :: (Z1 ++ rList cs2) := by
      rw [rList_cons, hsh]
      simp [List.append_assoc]
    rw [hbody, parseTop]
    rw [show ('<' :: t1 :: (Z1 ++ rList cs2) : List Char)
      = rElem c1 ++ rList cs2 from by rw [hsh]; simp [List.append_assoc]]
    rw [(parse_render_main f).1 c1 (rList cs2) hv1 hn1 (by omega)]
    dsimp only
    rw [ih f (fun c hc => hok c (List.mem_cons_of_mem c1 hc)) (by omega)]

/-- C8 (amended): for every component list on which `validateComponent`
reports no errors and in which every internal node has at least one child,
`formatMinified` followed by parsing the tag markup back recovers exactly
the original tag names, attribute key/value lists and leaf text contents,
entity escaping being undone by the parser. -/
theorem minified_roundtrip (cs : List PomlComponent)
    (h : cs.all (fun c => (validateComponent c).isEmpty && noEmptyNodes c) = true) :
    parsePoml (pomlFormatMinified cs) = some cs := by
  have hok : ∀ c ∈ cs, validateComponent c = [] ∧ noEmptyNodes c = true := by
    intro c hc
    have h2 := List.all_eq_true.mp h c hc
    simp only [Bool.and_eq_true, List.isEmpty_iff] at h2
    exact h2
  have hdata : (pomlFormatMinified cs).data = rList cs := rfl
  unfold parsePoml
  rw [hdata]
  exact parseTop_render cs _ hok (by omega)

/-- C8 (amended, witness): a concrete validated tree with an attribute and
special characters in both the attribute value and the leaf text
round-trips through `formatMinified` and the parser. -/
theorem minified_roundtrip_witness :
    ([PomlComponent.nodeC "poml" [] [PomlComponent.textC "role" [("k", "a&b")] "x<y"]].all
      (fun c => (validateComponent c).isEmpty && noEmptyNodes c) = true) ∧
    parsePoml (pomlFormatMinified
      [PomlComponent.nodeC "poml" [] [PomlComponent.textC "role" [("k", "a&b")] "x<y"]]) =
      some [PomlComponent.nodeC "poml" [] [PomlComponent.textC "role" [("k", "a&b")] "x<y"]] :=
  ⟨by decide, minified_roundtrip _ (by decide)⟩

/-- C8 (counterexample): the claim fails for the indented `format`: a valid
leaf whose text contains a newline is serialized with each line re-indented,
so parsing the markup back yields different leaf text (here
`"\n  x\n  y\n"` instead of `"x\ny"`), although the tree passes validation
with zero errors. -/
theorem format_roundtrip_fails :
    validateComponent (.textC "t" [] "x\ny") = [] ∧
    noEmptyNodes (.textC "t" [] "x\ny") = true ∧
    parsePoml (pomlFormat [.textC "t" [] "x\ny"] {}) ≠
      some [.textC "t" [] "x\ny"] := by
  refine ⟨by decide, rfl, ?_⟩
  intro hcon
  have h : parsePoml (pomlFormat [PomlComponent.textC "t" [] "x\ny"] {}) =
      some [PomlComponent.textC "t" [] "\n  x\n  y\n"] := by rfl
  rw [h] at hcon
  injection hcon with h1
  injection h1 with h2 h3
  injection h2 with h4 h5 h6
  exact absurd h6 (by decide)

end PomlStudio
